import Mathlib

/-!
# InfiniteIsing: the self-growing lattice and the Wolff cluster solver

A shallow embedding of `Lattice.hpp` (class `InfiniteLattice`) and `Wolff.hpp`
(class `WolffSolver`).

Modelling conventions.

* `size_t` values are natural numbers and `int` values are integers, both
  unbounded: no wrap-around is modelled.  Unsigned subtraction is truncated
  subtraction on `Nat`.
* `std::sqrt` in `getGeneration` is the exact integer floor square root
  (`isqrt`, shown equal to `Nat.sqrt`).  `getGenerationDouble` and
  `indx2coordDouble` follow the machine instead: 64-bit `size_t` that wraps
  and binary64 `double` operations, each rounded to nearest.  The two
  differ at index `4503599757937644`, where `2*site - 1` exceeds `2^53`.
* `std::vector` is `List`; `push_back` appends at the end.  `operator[]` with
  an index beyond `size()` is undefined behaviour in the source and is the
  fault `Fault.outOfRange` here.  `throw 0` is the fault `Fault.thrown`.
* The `while` loop of `ClusterSearch` is run with a fuel counter, one unit per
  iteration; running out is the fault `Fault.outOfFuel`.
* One random draw is the Boolean outcome of the test
  `RNG(mt) < 1 - exp(-2 * beta)`; a search receives its draws as a function
  from the number of draws already made to the outcome.
-/

namespace InfiniteIsing

/-- Ways in which a call does not return normally. -/
inductive Fault where
  /-- The statement `throw 0` of `indx2coord`. -/
  | thrown
  /-- A vector read or write at an index that is not below `size()`. -/
  | outOfRange
  /-- The fuel of the model of a `while` loop is used up. -/
  | outOfFuel
deriving DecidableEq, Repr

deriving instance DecidableEq for Except

/-- Linear index of a site (`indx_t`). -/
abbrev indx_t := Nat

/-- Cartesian coordinate of a site (`coord_t`): first x, then y. -/
abbrev coord_t := Int × Int

/-- The four neighbour indices of a site (`neighbor_t`), in storage order. -/
abbrev neighbor_t := Nat × Nat × Nat × Nat

/-- The entries of a neighbour tuple in the order a range-for visits them. -/
def neighbor_t.toList (n : neighbor_t) : List Nat := [n.1, n.2.1, n.2.2.1, n.2.2.2]

/-- The macro `SPIN0`. -/
def SPIN0 : Bool := true

/-- Integer floor square root, by recursion on the argument. -/
def isqrt : Nat → Nat
  | 0 => 0
  | n + 1 => if (isqrt n + 1) * (isqrt n + 1) ≤ n + 1 then isqrt n + 1 else isqrt n

/-- `NumPointsUpToGen`: number of lattice sites needed for generation `g`. -/
def NumPointsUpToGen (g : Nat) : Nat := 2 * g * g + 2 * g + 1

/-- `getGeneration(indx_t)`: the generation ring of a site. -/
def getGeneration (site : Nat) : Nat :=
  if site = 0 then 0 else (isqrt (2 * site - 1) - 1) / 2 + 1

/-- `coord2indx`: linear index of a Cartesian coordinate. -/
def coord2indx (c : coord_t) : Nat :=
  let gen : Nat := c.1.natAbs + c.2.natAbs
  if 0 ≤ c.1 ∧ 0 < c.2 then
    let pos_in_sector : Nat := (((gen : Int) + c.1 - c.2) / 2).toNat
    NumPointsUpToGen (gen - 1) + pos_in_sector
  else if 0 < c.1 ∧ c.2 ≤ 0 then
    let pos_in_sector : Nat := (((gen : Int) - c.1 - c.2) / 2).toNat
    NumPointsUpToGen (gen - 1) + pos_in_sector + gen
  else if c.1 ≤ 0 ∧ c.2 < 0 then
    let pos_in_sector : Nat := (((gen : Int) - c.1 + c.2) / 2).toNat
    NumPointsUpToGen (gen - 1) + pos_in_sector + 2 * gen
  else if c.1 < 0 ∧ 0 ≤ c.2 then
    let pos_in_sector : Nat := (((gen : Int) + c.1 + c.2) / 2).toNat
    NumPointsUpToGen (gen - 1) + pos_in_sector + 3 * gen
  else
    0

/-- `indx2coord`: Cartesian coordinate of a linear index; the `default` case
of the `switch` throws. -/
def indx2coord (i : Nat) : Except Fault coord_t :=
  if i = 0 then .ok (0, 0)
  else
    let gen : Nat := getGeneration i
    let pos_in_gen : Nat := i - NumPointsUpToGen (gen - 1)
    let pos_in_sector : Nat := pos_in_gen % gen
    match pos_in_gen / gen with
    | 0 => .ok ((pos_in_sector : Int), (gen : Int) - pos_in_sector)
    | 1 => .ok ((gen : Int) - pos_in_sector, -(pos_in_sector : Int))
    | 2 => .ok (-(pos_in_sector : Int), -(gen : Int) + pos_in_sector)
    | 3 => .ok (-(gen : Int) + pos_in_sector, (pos_in_sector : Int))
    | _ => .error Fault.thrown

/-- `get_neighbors`: the indices of the sites above, right of, below and left
of a site. -/
def get_neighbors (site : Nat) : Except Fault neighbor_t :=
  match indx2coord site with
  | .error e => .error e
  | .ok site_coords =>
    .ok (coord2indx (site_coords.1, site_coords.2 + 1),
         coord2indx (site_coords.1 + 1, site_coords.2),
         coord2indx (site_coords.1, site_coords.2 - 1),
         coord2indx (site_coords.1 - 1, site_coords.2))

/-- The data members of `InfiniteLattice`. -/
structure InfiniteLattice where
  /-- Member `_gen`. -/
  gen : Nat
  /-- Member `_spins`. -/
  spins : List Bool
  /-- Member `_neighbors`. -/
  neighbors : List neighbor_t
deriving DecidableEq, Repr

namespace InfiniteLattice

/-- The default member initialisers: generation 0, one spin `SPIN0`, and the
origin's neighbour tuple `{1,2,3,4}`. -/
def initial : InfiniteLattice :=
  { gen := 0, spins := [SPIN0], neighbors := [(1, 2, 3, 4)] }

/-- `getGeneration()`: the generation counter. -/
def getGeneration (l : InfiniteLattice) : Nat := l.gen

/-- The `for` loop of `IncreaseLatticeSize`, with `n` iterations left: each
one appends the neighbour tuple of index `_spins.size()` and then the spin. -/
def pushSites (neelSpin : Bool) : Nat → InfiniteLattice → Except Fault InfiniteLattice
  | 0, l => .ok l
  | n + 1, l =>
    match get_neighbors l.spins.length with
    | .error e => .error e
    | .ok nb =>
      pushSites neelSpin n
        { l with neighbors := l.neighbors ++ [nb], spins := l.spins ++ [neelSpin] }

/-- `IncreaseLatticeSize`: one growth step. -/
def IncreaseLatticeSize (l : InfiniteLattice) : Except Fault InfiniteLattice :=
  let g := l.gen + 1
  let neelSpin : Bool := if g % 2 = 0 then SPIN0 else !SPIN0
  pushSites neelSpin (g * 4) { l with gen := g }

/-- The loop of the constructor, with `n` growth steps left. -/
def growTimes : Nat → InfiniteLattice → Except Fault InfiniteLattice
  | 0, l => .ok l
  | n + 1, l =>
    match IncreaseLatticeSize l with
    | .error e => .error e
    | .ok l1 => growTimes n l1

/-- The constructor `InfiniteLattice(size_t initial_generaton)`. -/
def construct (initial_generaton : Nat) : Except Fault InfiniteLattice :=
  growTimes initial_generaton initial

/-- `getNeighbors(indx_t)`: the stored neighbour tuple of a site. -/
def getNeighbors (l : InfiniteLattice) (site : Nat) : Except Fault neighbor_t :=
  match l.neighbors[site]? with
  | none => .error Fault.outOfRange
  | some nb => .ok nb

/-- The non-const `getSpin`: one growth step when the site is not below
`_spins.size()`, then the read `_spins[site]`.  Returns the spin and the
lattice after the call. -/
def getSpin (l : InfiniteLattice) (site : Nat) : Except Fault (Bool × InfiniteLattice) :=
  match (if site ≥ l.spins.length then IncreaseLatticeSize l else .ok l) with
  | .error e => .error e
  | .ok l1 =>
    match l1.spins[site]? with
    | none => .error Fault.outOfRange
    | some b => .ok (b, l1)

/-- The const `getSpin`: the read `_spins[site]` alone. -/
def getSpinConst (l : InfiniteLattice) (site : Nat) : Except Fault Bool :=
  match l.spins[site]? with
  | none => .error Fault.outOfRange
  | some b => .ok b

/-- `flipSpins`: inverts the spin of each site of the cluster, in order. -/
def flipSpins (l : InfiniteLattice) : List Nat → Except Fault InfiniteLattice
  | [] => .ok l
  | site :: rest =>
    match l.spins[site]? with
    | none => .error Fault.outOfRange
    | some b => flipSpins { l with spins := l.spins.set site (!b) } rest

end InfiniteLattice

/-! ## `WolffSolver` -/

/-- The local variables of `ClusterSearch` together with the lattice the
solver refers to; `drawn` counts the random draws made so far. -/
structure SearchState where
  /-- The lattice behind the reference member `_latt`. -/
  latt : InfiniteLattice
  /-- Local `cluster`. -/
  cluster : List Nat
  /-- Local `bonds_visited`, a set of pairs. -/
  bonds_visited : List (Nat × Nat)
  /-- Number of calls of `RNG(mt)` so far. -/
  drawn : Nat
deriving DecidableEq, Repr

/-- The body of the range-for over the neighbours in `ClusterSearch`, for one
neighbour.  The operands of `==` are read left to right. -/
def visitNeighbor (draws : Nat → Bool) (current : Nat) (st : SearchState) (neighbor : Nat) :
    Except Fault SearchState :=
  match st.latt.getSpin current with
  | .error e => .error e
  | .ok (sc, l1) =>
    match l1.getSpin neighbor with
    | .error e => .error e
    | .ok (sn, l2) =>
      if sc = sn then
        if neighbor ∈ st.cluster then .ok { st with latt := l2 }
        else
          let bond : Nat × Nat := (min current neighbor, max current neighbor)
          if bond ∈ st.bonds_visited then .ok { st with latt := l2 }
          else if draws st.drawn then
            .ok { latt := l2, cluster := st.cluster ++ [neighbor],
                  bonds_visited := bond :: st.bonds_visited, drawn := st.drawn + 1 }
          else
            .ok { latt := l2, cluster := st.cluster,
                  bonds_visited := bond :: st.bonds_visited, drawn := st.drawn + 1 }
      else .ok { st with latt := l2 }

/-- The range-for over the neighbours of `current`. -/
def visitNeighbors (draws : Nat → Bool) (current : Nat) :
    SearchState → List Nat → Except Fault SearchState
  | st, [] => .ok st
  | st, neighbor :: rest =>
    match visitNeighbor draws current st neighbor with
    | .error e => .error e
    | .ok st1 => visitNeighbors draws current st1 rest

/-- The `while` loop of `ClusterSearch`; the first argument is the fuel.  The
loop ends when `currentIdx` is not below `cluster.size()`. -/
def searchLoop (draws : Nat → Bool) : Nat → Nat → SearchState → Except Fault SearchState
  | fuel, currentIdx, st =>
    match st.cluster[currentIdx]? with
    | none => .ok st
    | some current =>
      match fuel with
      | 0 => .error Fault.outOfFuel
      | fuel + 1 =>
        match st.latt.getNeighbors current with
        | .error e => .error e
        | .ok nbs =>
          match visitNeighbors draws current st nbs.toList with
          | .error e => .error e
          | .ok st1 => searchLoop draws fuel (currentIdx + 1) st1

/-- `ClusterSearch`: the cluster grown from the origin, and the lattice after
the search (the reads may have grown it). -/
def ClusterSearch (fuel : Nat) (draws : Nat → Bool) (l : InfiniteLattice) :
    Except Fault (List Nat × InfiniteLattice) :=
  match searchLoop draws fuel 0
      { latt := l, cluster := [0], bonds_visited := [], drawn := 0 } with
  | .error e => .error e
  | .ok st => .ok (st.cluster, st.latt)

/-- One pass of the inner loop of `solve` for one site: pad `G_count` with
zeros while `G_count.size() < site`, then `G_count[site]++`. -/
def countSite (G_count : List Nat) (site : Nat) : Except Fault (List Nat) :=
  let padded := G_count ++ List.replicate (site - G_count.length) 0
  match padded[site]? with
  | none => .error Fault.outOfRange
  | some c => .ok (padded.set site (c + 1))

/-- The loop `for ( auto site : cluster )` of `solve`. -/
def countCluster : List Nat → List Nat → Except Fault (List Nat)
  | G_count, [] => .ok G_count
  | G_count, site :: rest =>
    match countSite G_count site with
    | .error e => .error e
    | .ok G1 => countCluster G1 rest

/-- The iteration loop of `solve`: `n` iterations left, `i` the iteration
index; iteration `i` draws from `rng i`.  No observer is registered. -/
def solveLoop (fuel : Nat) (rng : Nat → Nat → Bool) :
    Nat → Nat → InfiniteLattice → List Nat → Except Fault (List Nat × InfiniteLattice)
  | 0, _, l, G_count => .ok (G_count, l)
  | n + 1, i, l, G_count =>
    match ClusterSearch fuel (rng i) l with
    | .error e => .error e
    | .ok (cluster, l1) =>
      match l1.flipSpins cluster with
      | .error e => .error e
      | .ok l2 =>
        match countCluster G_count cluster with
        | .error e => .error e
        | .ok G1 => solveLoop fuel rng n (i + 1) l2 G1

/-- `solve`: the frequencies `G_count[i] / n_iterations` as exact rationals,
and the lattice after the run. -/
def solve (fuel : Nat) (rng : Nat → Nat → Bool) (l : InfiniteLattice) (n_iterations : Nat) :
    Except Fault (List ℚ × InfiniteLattice) :=
  match solveLoop fuel rng n_iterations 0 l [0] with
  | .error e => .error e
  | .ok (G_count, l1) => .ok (G_count.map (fun (c : Nat) => (c : ℚ) / (n_iterations : ℚ)), l1)

/-- The data members of `WolffSolver` the constructor sets; `beta` stands for
the `double` inverse temperature. -/
structure WolffSolver where
  /-- The lattice behind the reference member `_latt`. -/
  latt : InfiniteLattice
  /-- Member `_beta`. -/
  beta : ℚ
deriving DecidableEq

/-- The constructor `WolffSolver(InfiniteLattice& latt, double beta)`: it
stores both arguments and has an empty body. -/
def WolffSolver.construct (latt : InfiniteLattice) (beta : ℚ) : Except Fault WolffSolver :=
  .ok { latt := latt, beta := beta }

/-! ## Auxiliary definitions for the statements -/

/-- The coordinate of the site at position `p` of sector `s` of ring `g`. -/
def ringCoord (g s p : Nat) : Except Fault coord_t :=
  match s with
  | 0 => .ok ((p : Int), (g : Int) - p)
  | 1 => .ok ((g : Int) - p, -(p : Int))
  | 2 => .ok (-(p : Int), -(g : Int) + p)
  | 3 => .ok (-(g : Int) + p, (p : Int))
  | _ => .error Fault.thrown

/-- The index of the site at position `p` of sector `s` of ring `g`. -/
def ringIndex (g s p : Nat) : Nat := NumPointsUpToGen (g - 1) + (s * g + p)


/-- The tuple `get_neighbors` returns for a site (a dummy tuple for a fault;
`get_neighbors_eq` shows there is none). -/
def neighborsOf (site : Nat) : neighbor_t :=
  match get_neighbors site with
  | .ok nb => nb
  | .error _ => (0, 0, 0, 0)

/-- The spin the sites of ring `g` receive when they are created. -/
def neelSpin (g : Nat) : Bool := if g % 2 = 0 then SPIN0 else !SPIN0

/-- The lattice one growth step produces, in closed form. -/
def grown (l : InfiniteLattice) : InfiniteLattice :=
  { gen := l.gen + 1
    spins := l.spins ++ List.replicate ((l.gen + 1) * 4) (neelSpin (l.gen + 1))
    neighbors := l.neighbors ++ (List.range' l.spins.length ((l.gen + 1) * 4)).map neighborsOf }

/-- The lattice states reachable from a constructor call by calls of the
non-const `getSpin` and of `flipSpins` that return normally. -/
inductive Reachable : InfiniteLattice → Prop
  | construct (G : Nat) (l : InfiniteLattice) :
      InfiniteLattice.construct G = .ok l → Reachable l
  | getSpin (l : InfiniteLattice) (site : Nat) (b : Bool) (l1 : InfiniteLattice) :
      Reachable l → l.getSpin site = .ok (b, l1) → Reachable l1
  | flipSpins (l : InfiniteLattice) (cluster : List Nat) (l1 : InfiniteLattice) :
      Reachable l → l.flipSpins cluster = .ok l1 → Reachable l1

/-- The size and neighbour invariant of the lattice: both vectors hold
`NumPointsUpToGen _gen` entries and every stored neighbour tuple is the one
`get_neighbors` computes for its index. -/
def WellFormed (l : InfiniteLattice) : Prop :=
  l.spins.length = NumPointsUpToGen l.gen ∧ l.neighbors.length = NumPointsUpToGen l.gen ∧
    ∀ i, i < NumPointsUpToGen l.gen → l.neighbors[i]? = some (neighborsOf i)

/-- The spins after the loop of `flipSpins` over a cluster. -/
def flipAll : List Bool → List Nat → List Bool
  | spins, [] => spins
  | spins, site :: rest => flipAll (spins.set site (!(spins[site]?.getD false))) rest

/-! ## The search without the visited-bond set, and the strict search -/

/-- The body of the range-for of `ClusterSearch` with the test of
`bonds_visited` and the insertion into it removed. -/
def visitNeighborNoBonds (draws : Nat → Bool) (current : Nat) (st : SearchState)
    (neighbor : Nat) : Except Fault SearchState :=
  match st.latt.getSpin current with
  | .error e => .error e
  | .ok (sc, l1) =>
    match l1.getSpin neighbor with
    | .error e => .error e
    | .ok (sn, l2) =>
      if sc = sn then
        if neighbor ∈ st.cluster then .ok { st with latt := l2 }
        else if draws st.drawn then
          .ok { latt := l2, cluster := st.cluster ++ [neighbor],
                bonds_visited := st.bonds_visited, drawn := st.drawn + 1 }
        else
          .ok { latt := l2, cluster := st.cluster,
                bonds_visited := st.bonds_visited, drawn := st.drawn + 1 }
      else .ok { st with latt := l2 }

/-- The range-for over the neighbours, without the visited-bond set. -/
def visitNeighborsNoBonds (draws : Nat → Bool) (current : Nat) :
    SearchState → List Nat → Except Fault SearchState
  | st, [] => .ok st
  | st, neighbor :: rest =>
    match visitNeighborNoBonds draws current st neighbor with
    | .error e => .error e
    | .ok st1 => visitNeighborsNoBonds draws current st1 rest

/-- The `while` loop of the search, without the visited-bond set. -/
def searchLoopNoBonds (draws : Nat → Bool) : Nat → Nat → SearchState → Except Fault SearchState
  | fuel, currentIdx, st =>
    match st.cluster[currentIdx]? with
    | none => .ok st
    | some current =>
      match fuel with
      | 0 => .error Fault.outOfFuel
      | fuel + 1 =>
        match st.latt.getNeighbors current with
        | .error e => .error e
        | .ok nbs =>
          match visitNeighborsNoBonds draws current st nbs.toList with
          | .error e => .error e
          | .ok st1 => searchLoopNoBonds draws fuel (currentIdx + 1) st1

/-- The variant of `ClusterSearch` with the `bonds_visited` test and insertion
removed. -/
def ClusterSearchNoBonds (fuel : Nat) (draws : Nat → Bool) (l : InfiniteLattice) :
    Except Fault (List Nat × InfiniteLattice) :=
  match searchLoopNoBonds draws fuel 0
      { latt := l, cluster := [0], bonds_visited := [], drawn := 0 } with
  | .error e => .error e
  | .ok st => .ok (st.cluster, st.latt)

/-- The body of the range-for of `ClusterSearch`, stopping with `none` when
the test of `bonds_visited` rejects the candidate: the neighbour has the
spin of `current`, is not in the cluster, and the bond is already visited. -/
def visitNeighborStrict (draws : Nat → Bool) (current : Nat) (st : SearchState)
    (neighbor : Nat) : Except Fault (Option SearchState) :=
  match st.latt.getSpin current with
  | .error e => .error e
  | .ok (sc, l1) =>
    match l1.getSpin neighbor with
    | .error e => .error e
    | .ok (sn, l2) =>
      if sc = sn then
        if neighbor ∈ st.cluster then .ok (some { st with latt := l2 })
        else
          let bond : Nat × Nat := (min current neighbor, max current neighbor)
          if bond ∈ st.bonds_visited then .ok none
          else if draws st.drawn then
            .ok (some { latt := l2, cluster := st.cluster ++ [neighbor],
                        bonds_visited := bond :: st.bonds_visited, drawn := st.drawn + 1 })
          else
            .ok (some { latt := l2, cluster := st.cluster,
                        bonds_visited := bond :: st.bonds_visited, drawn := st.drawn + 1 })
      else .ok (some { st with latt := l2 })

/-- The range-for over the neighbours, stopping at the first rejection by the
visited-bond test. -/
def visitNeighborsStrict (draws : Nat → Bool) (current : Nat) :
    SearchState → List Nat → Except Fault (Option SearchState)
  | st, [] => .ok (some st)
  | st, neighbor :: rest =>
    match visitNeighborStrict draws current st neighbor with
    | .error e => .error e
    | .ok none => .ok none
    | .ok (some st1) => visitNeighborsStrict draws current st1 rest

/-- The `while` loop of the search, stopping at the first rejection by the
visited-bond test. -/
def searchLoopStrict (draws : Nat → Bool) :
    Nat → Nat → SearchState → Except Fault (Option SearchState)
  | fuel, currentIdx, st =>
    match st.cluster[currentIdx]? with
    | none => .ok (some st)
    | some current =>
      match fuel with
      | 0 => .error Fault.outOfFuel
      | fuel + 1 =>
        match st.latt.getNeighbors current with
        | .error e => .error e
        | .ok nbs =>
          match visitNeighborsStrict draws current st nbs.toList with
          | .error e => .error e
          | .ok none => .ok none
          | .ok (some st1) => searchLoopStrict draws fuel (currentIdx + 1) st1

/-- `ClusterSearch`, returning `none` if the visited-bond test ever rejects a
candidate. -/
def ClusterSearchStrict (fuel : Nat) (draws : Nat → Bool) (l : InfiniteLattice) :
    Except Fault (Option (List Nat × InfiniteLattice)) :=
  match searchLoopStrict draws fuel 0
      { latt := l, cluster := [0], bonds_visited := [], drawn := 0 } with
  | .error e => .error e
  | .ok none => .ok none
  | .ok (some st) => .ok (some (st.cluster, st.latt))

/-! ## Spins, connectivity and the invariants of the search -/

/-- The spin of a site seen from a lattice state: the stored spin if the site
is materialised, otherwise the spin it receives when its ring is created. -/
def virtualSpin (l : InfiniteLattice) (i : Nat) : Bool :=
  match l.spins[i]? with
  | some b => b
  | none => neelSpin (getGeneration i)

/-- A site is connected to the origin: there is a path of neighbour steps
from index 0 to it through sites that all have the origin's spin. -/
inductive Connected (spin : Nat → Bool) : Nat → Prop
  | origin : Connected spin 0
  | step (a b : Nat) :
      Connected spin a → b ∈ (neighborsOf a).toList → spin b = spin 0 → Connected spin b

/-- The invariant of the cluster search started on the lattice `l0`. -/
structure SearchInv (l0 : InfiniteLattice) (draws : Nat → Bool) (st : SearchState) : Prop where
  reach : Reachable st.latt
  gen_ge : l0.gen ≤ st.latt.gen
  gen_le : st.latt.gen ≤ l0.gen + 2
  spin_eq : ∀ i, i < st.latt.spins.length → st.latt.spins[i]? = some (virtualSpin l0 i)
  mem_lt : ∀ m ∈ st.cluster, m < st.latt.spins.length
  mem_gen : ∀ m ∈ st.cluster, getGeneration m ≤ l0.gen + 1
  mem_spin : ∀ m ∈ st.cluster, virtualSpin l0 m = virtualSpin l0 0
  mem_conn : ∀ m ∈ st.cluster, Connected (virtualSpin l0) m
  nodup : st.cluster.Nodup
  head : st.cluster.head? = some 0
  rejected : (∀ k, draws k = false) → st.cluster = [0]

/-- The invariant between two iterations of the `while` loop: the members
before `idx` are done. -/
structure LoopInv (l0 : InfiniteLattice) (draws : Nat → Bool) (idx : Nat)
    (st : SearchState) : Prop where
  base : SearchInv l0 draws st
  bonds : ∀ bond ∈ st.bonds_visited,
    ∃ a b, bond = (min a b, max a b) ∧ a ∈ st.cluster.take idx
  closed : (∀ k, draws k = true) → ∀ a ∈ st.cluster.take idx,
    ∀ n ∈ (neighborsOf a).toList, virtualSpin l0 n = virtualSpin l0 0 → n ∈ st.cluster

/-- The invariant inside the range-for over the neighbours of `c`, the member
at `idx`, when the neighbours in `done` have been visited. -/
structure VisitInv (l0 : InfiniteLattice) (draws : Nat → Bool) (idx c : Nat)
    (done : List Nat) (st : SearchState) : Prop where
  base : SearchInv l0 draws st
  current : st.cluster[idx]? = some c
  bonds : ∀ bond ∈ st.bonds_visited,
    ∃ a b, bond = (min a b, max a b) ∧ (a ∈ st.cluster.take idx ∨ (a = c ∧ b ∈ done))
  closed : (∀ k, draws k = true) → ∀ a ∈ st.cluster.take idx,
    ∀ n ∈ (neighborsOf a).toList, virtualSpin l0 n = virtualSpin l0 0 → n ∈ st.cluster
  closed_done : (∀ k, draws k = true) → ∀ n ∈ done,
    virtualSpin l0 n = virtualSpin l0 0 → n ∈ st.cluster

/-- The lattice of generation 1 after one flip of the origin: all five spins
are equal.  Used as a concrete input. -/
def flippedGen1 : InfiniteLattice :=
  ⟨1, [false, false, false, false, false],
    [(1, 2, 3, 4), (5, 6, 0, 12), (6, 7, 8, 0), (0, 8, 9, 10), (12, 0, 10, 11)]⟩

/-! ## `getGeneration` and `indx2coord` in machine arithmetic

`size_t` is 64 bits wide and wraps, `int` is 32 bits wide, and `double` is
IEEE 754 binary64 with round-to-nearest-even; each floating-point operation
of `getGeneration` is rounded on its own.  A non-negative `double` `x` is
represented by the natural number `x * 2^64`; every value met here is a
multiple of `2^-64`. -/

/-- Number of binary digits of `n`, for `n` below `2 ^ fuel`. -/
def bitLength : Nat → Nat → Nat
  | 0, _ => 0
  | fuel + 1, n => if n = 0 then 0 else bitLength fuel (n / 2) + 1

/-- Rounding of a natural number to 53 significant binary digits, to nearest
and ties to even: the rounding of binary64 (no overflow, no subnormals). -/
def roundDouble (v : Nat) : Nat :=
  let len := bitLength 256 v
  if len ≤ 53 then v
  else
    let shift := len - 53
    let q := v / 2 ^ shift
    let r := v % 2 ^ shift
    let half := 2 ^ (shift - 1)
    let q1 := if r < half then q else if half < r then q + 1 else if q % 2 = 0 then q else q + 1
    q1 * 2 ^ shift

/-- Binary search for the integer floor square root: `k` digits left. -/
def sqrtFloorBits : Nat → Nat → Nat → Nat
  | 0, _, r => r
  | k + 1, n, r =>
    if (r + 2 ^ k) * (r + 2 ^ k) ≤ n then sqrtFloorBits k n (r + 2 ^ k)
    else sqrtFloorBits k n r

/-- Integer floor square root of a number below `2 ^ 256`. -/
def sqrtFloor (n : Nat) : Nat := sqrtFloorBits 128 n 0

/-- `std::sqrt` on a `double` that holds the integer `d >= 1`: the correctly
rounded square root, as `sqrt d * 2^64`.  The digit `sticky` records whether
the root is inexact, so that the rounding sees on which side of a midpoint
the exact root lies. -/
def sqrtDouble (d : Nat) : Nat :=
  let r := sqrtFloor (d * 2 ^ 128)
  let sticky := if r * r = d * 2 ^ 128 then 0 else 1
  roundDouble (2 * r + sticky) / 2

/-- `getGeneration(indx_t)` as the machine computes it:
`(0.5*((std::sqrt(2*site - 1)) - 1))+1` with `2*site - 1` in `size_t`, its
conversion to `double`, the four `double` operations, and the truncating
conversion of the result to `size_t`. -/
def getGenerationDouble (site : Nat) : Nat :=
  if site = 0 then 0
  else
    let n := (2 * site + (2 ^ 64 - 1)) % 2 ^ 64
    let d1 := sqrtDouble (roundDouble n)
    let d2 := roundDouble (d1 - 2 ^ 64)
    let d3 := roundDouble (d2 / 2)
    let d4 := roundDouble (d3 + 2 ^ 64)
    (d4 / 2 ^ 64) % 2 ^ 64

/-- Conversion of a `size_t` value to `int`: the low 32 bits, read as a
two's complement number. -/
def sizeToInt (v : Nat) : Int :=
  if v % 2 ^ 32 < 2 ^ 31 then ((v % 2 ^ 32 : Nat) : Int) else ((v % 2 ^ 32 : Nat) : Int) - 2 ^ 32

/-- `indx2coord` as the machine computes it: `getGeneration` in `double`
arithmetic, `size_t` arithmetic modulo `2^64`, results converted to `int`.
For `i > 0` the divisor `gen` is at least 1, as the last operation of
`getGeneration` adds 1. -/
def indx2coordDouble (i : Nat) : Except Fault coord_t :=
  if i = 0 then .ok (0, 0)
  else
    let gen : Nat := getGenerationDouble i
    let pos_in_gen : Nat :=
      (i + (2 ^ 64 - NumPointsUpToGen ((gen + (2 ^ 64 - 1)) % 2 ^ 64) % 2 ^ 64)) % 2 ^ 64
    let pos_in_sector : Nat := pos_in_gen % gen
    let neg_pos : Nat := (2 ^ 64 - pos_in_sector) % 2 ^ 64
    let neg_gen : Nat := (2 ^ 64 - gen) % 2 ^ 64
    match pos_in_gen / gen with
    | 0 => .ok (sizeToInt pos_in_sector, sizeToInt ((gen + neg_pos) % 2 ^ 64))
    | 1 => .ok (sizeToInt ((gen + neg_pos) % 2 ^ 64), sizeToInt neg_pos)
    | 2 => .ok (sizeToInt neg_pos, sizeToInt ((neg_gen + pos_in_sector) % 2 ^ 64))
    | 3 => .ok (sizeToInt ((neg_gen + pos_in_sector) % 2 ^ 64), sizeToInt pos_in_sector)
    | _ => .error Fault.thrown

/-! ## Arithmetic of rings -/

theorem isqrt_spec (n : Nat) : isqrt n * isqrt n ≤ n ∧ n < (isqrt n + 1) * (isqrt n + 1) := by
  induction n with
  | zero => simp [isqrt]
  | succ n ih =>
    obtain ⟨h1, h2⟩ := ih
    rw [isqrt]
    split_ifs with h
    · refine ⟨h, ?_⟩
      nlinarith
    · refine ⟨by omega, by omega⟩

theorem isqrt_eq_sqrt (n : Nat) : isqrt n = Nat.sqrt n :=
  Nat.eq_sqrt.2 (isqrt_spec n)

theorem NumPointsUpToGen_succ (k : Nat) :
    NumPointsUpToGen (k + 1) = NumPointsUpToGen k + 4 * (k + 1) := by
  unfold NumPointsUpToGen
  ring

theorem NumPointsUpToGen_pos (k : Nat) : 1 ≤ NumPointsUpToGen k := by
  unfold NumPointsUpToGen
  omega

theorem NumPointsUpToGen_mono {a b : Nat} (h : a ≤ b) :
    NumPointsUpToGen a ≤ NumPointsUpToGen b := by
  unfold NumPointsUpToGen
  have : a * a ≤ b * b := Nat.mul_le_mul h h
  nlinarith

/-- A site of ring `k + 1` has generation `k + 1`. -/
theorem getGeneration_of_ring (k i : Nat) (h1 : NumPointsUpToGen k ≤ i)
    (h2 : i < NumPointsUpToGen (k + 1)) : getGeneration i = k + 1 := by
  have hpos := NumPointsUpToGen_pos k
  unfold NumPointsUpToGen at h1 h2
  have hi : i ≠ 0 := by omega
  simp only [getGeneration, hi, if_false, isqrt_eq_sqrt]
  have hlo : 2 * k + 1 ≤ Nat.sqrt (2 * i - 1) := by
    rw [Nat.le_sqrt]
    have : (2 * k + 1) * (2 * k + 1) = 4 * (k * k) + 4 * k + 1 := by ring
    have h1' : 2 * (k * k) + 2 * k + 1 ≤ i := by nlinarith
    omega
  have hhi : Nat.sqrt (2 * i - 1) < 2 * k + 3 := by
    rw [Nat.sqrt_lt]
    have : (2 * k + 3) * (2 * k + 3) = 4 * (k * k) + 12 * k + 9 := by ring
    have h2' : i < 2 * (k * k) + 6 * k + 5 := by nlinarith
    omega
  omega

/-- Every site but the origin lies in the ring of its generation. -/
theorem getGeneration_bounds (i : Nat) (hi : 0 < i) :
    1 ≤ getGeneration i ∧ NumPointsUpToGen (getGeneration i - 1) ≤ i ∧
      i < NumPointsUpToGen (getGeneration i) := by
  have hi0 : i ≠ 0 := by omega
  simp only [getGeneration, hi0, if_false, isqrt_eq_sqrt]
  set r := Nat.sqrt (2 * i - 1) with hr
  have hr1 : r * r ≤ 2 * i - 1 := Nat.sqrt_le _
  have hr2 : 2 * i - 1 < (r + 1) * (r + 1) := Nat.lt_succ_sqrt _
  have hr0 : 1 ≤ r := by
    rw [hr, Nat.le_sqrt]; omega
  set k := (r - 1) / 2 with hk
  have hk1 : 2 * k + 1 ≤ r := by omega
  have hk2 : r ≤ 2 * k + 2 := by omega
  refine ⟨by omega, ?_, ?_⟩
  · simp only [Nat.add_sub_cancel]
    unfold NumPointsUpToGen
    have : (2 * k + 1) * (2 * k + 1) ≤ r * r := Nat.mul_le_mul hk1 hk1
    have e : (2 * k + 1) * (2 * k + 1) = 4 * (k * k) + 4 * k + 1 := by ring
    have e2 : 2 * k * k = 2 * (k * k) := by ring
    omega
  · unfold NumPointsUpToGen
    have : (r + 1) * (r + 1) ≤ (2 * k + 3) * (2 * k + 3) :=
      Nat.mul_le_mul (by omega) (by omega)
    have e : (2 * k + 3) * (2 * k + 3) = 4 * (k * k) + 12 * k + 9 := by ring
    have e2 : 2 * (k + 1) * (k + 1) = 2 * (k * k) + 4 * k + 2 := by ring
    omega


/-! ## The two index maps -/

theorem coord2indx_sectorI (g p : Nat) (hp : p < g) :
    coord2indx ((p : Int), (g : Int) - p) = NumPointsUpToGen (g - 1) + p := by
  have hgen : (p : Int).natAbs + ((g : Int) - p).natAbs = g := by omega
  have c1 : (0 : Int) ≤ (p : Int) ∧ (0 : Int) < (g : Int) - p := by omega
  simp only [coord2indx, hgen, c1, and_self, if_true]
  congr 1
  omega

theorem coord2indx_sectorII (g p : Nat) (hp : p < g) :
    coord2indx ((g : Int) - p, -(p : Int)) = NumPointsUpToGen (g - 1) + p + g := by
  have hgen : ((g : Int) - p).natAbs + (-(p : Int)).natAbs = g := by omega
  have c1 : ¬ ((0 : Int) ≤ (g : Int) - p ∧ (0 : Int) < -(p : Int)) := by omega
  have c2 : (0 : Int) < (g : Int) - p ∧ -(p : Int) ≤ 0 := by omega
  simp only [coord2indx, hgen, c1, c2, and_self, if_true, if_false]
  congr 2
  omega

theorem coord2indx_sectorIII (g p : Nat) (hp : p < g) :
    coord2indx (-(p : Int), -(g : Int) + p) = NumPointsUpToGen (g - 1) + p + 2 * g := by
  have hgen : (-(p : Int)).natAbs + (-(g : Int) + p).natAbs = g := by omega
  have c1 : ¬ ((0 : Int) ≤ -(p : Int) ∧ (0 : Int) < -(g : Int) + p) := by omega
  have c2 : ¬ ((0 : Int) < -(p : Int) ∧ -(g : Int) + p ≤ 0) := by omega
  have c3 : -(p : Int) ≤ 0 ∧ -(g : Int) + p < 0 := by omega
  simp only [coord2indx, hgen, c1, c2, c3, and_self, if_true, if_false]
  congr 2
  omega

theorem coord2indx_sectorIV (g p : Nat) (hp : p < g) :
    coord2indx (-(g : Int) + p, (p : Int)) = NumPointsUpToGen (g - 1) + p + 3 * g := by
  have hgen : (-(g : Int) + p).natAbs + ((p : Int)).natAbs = g := by omega
  have c1 : ¬ ((0 : Int) ≤ -(g : Int) + p ∧ (0 : Int) < (p : Int)) := by omega
  have c2 : ¬ ((0 : Int) < -(g : Int) + p ∧ (p : Int) ≤ 0) := by omega
  have c3 : ¬ (-(g : Int) + p ≤ 0 ∧ (p : Int) < 0) := by omega
  have c4 : -(g : Int) + p < 0 ∧ (0 : Int) ≤ (p : Int) := by omega
  simp only [coord2indx, hgen, c1, c2, c3, c4, and_self, if_true, if_false]
  congr 2
  omega

theorem indx2coord_ringIndex (g s p : Nat) (hg : 1 ≤ g) (hs : s < 4) (hp : p < g) :
    indx2coord (ringIndex g s p) = ringCoord g s p := by
  obtain ⟨k, rfl⟩ : ∃ k, g = k + 1 := ⟨g - 1, by omega⟩
  have hpos := NumPointsUpToGen_pos k
  have hsg : s * (k + 1) + p < 4 * (k + 1) := by
    have : s * (k + 1) ≤ 3 * (k + 1) := Nat.mul_le_mul_right _ (by omega)
    omega
  have hgen : getGeneration (ringIndex (k + 1) s p) = k + 1 := by
    apply getGeneration_of_ring
    · simp only [ringIndex, Nat.add_sub_cancel]; omega
    · rw [NumPointsUpToGen_succ]; simp only [ringIndex, Nat.add_sub_cancel]; omega
  have hne : ringIndex (k + 1) s p ≠ 0 := by
    simp only [ringIndex, Nat.add_sub_cancel]; omega
  have hpig : ringIndex (k + 1) s p - NumPointsUpToGen (k + 1 - 1) = s * (k + 1) + p := by
    simp only [ringIndex, Nat.add_sub_cancel]; omega
  have hdiv : (s * (k + 1) + p) / (k + 1) = s := by
    rw [Nat.add_comm, Nat.add_mul_div_right _ _ (by omega : 0 < k + 1), Nat.div_eq_of_lt hp]
    omega
  have hmod : (s * (k + 1) + p) % (k + 1) = p := by
    rw [Nat.add_comm, Nat.add_mul_mod_self_right, Nat.mod_eq_of_lt hp]
  simp only [indx2coord, hne, if_false, hgen, hpig, hdiv, hmod]
  rfl

/-- Every index but the origin is a ring index. -/
theorem exists_ringIndex (i : Nat) (hi : 0 < i) :
    ∃ s p, s < 4 ∧ p < getGeneration i ∧ i = ringIndex (getGeneration i) s p := by
  obtain ⟨hg, hlo, hhi⟩ := getGeneration_bounds i hi
  obtain ⟨k, hk⟩ : ∃ k, getGeneration i = k + 1 := ⟨getGeneration i - 1, by omega⟩
  rw [hk] at hlo hhi ⊢
  rw [NumPointsUpToGen_succ] at hhi
  simp only [Nat.add_sub_cancel] at hlo
  refine ⟨(i - NumPointsUpToGen k) / (k + 1), (i - NumPointsUpToGen k) % (k + 1), ?_, ?_, ?_⟩
  · rw [Nat.div_lt_iff_lt_mul (by omega)]; omega
  · exact Nat.mod_lt _ (by omega)
  · simp only [ringIndex, Nat.add_sub_cancel]
    have := Nat.div_add_mod (i - NumPointsUpToGen k) (k + 1)
    rw [Nat.mul_comm] at this
    omega

theorem coord2indx_ringCoord (g s p : Nat) (hs : s < 4) (hp : p < g) :
    ∃ c, ringCoord g s p = .ok c ∧ coord2indx c = ringIndex g s p := by
  interval_cases s
  · exact ⟨_, rfl, by rw [coord2indx_sectorI g p hp]; simp [ringIndex]⟩
  · exact ⟨_, rfl, by rw [coord2indx_sectorII g p hp]; simp [ringIndex]; omega⟩
  · exact ⟨_, rfl, by rw [coord2indx_sectorIII g p hp]; simp [ringIndex]; omega⟩
  · exact ⟨_, rfl, by rw [coord2indx_sectorIV g p hp]; simp [ringIndex]; omega⟩


/-- The index to coordinate map never throws, and `coord2indx` undoes it. -/
theorem indx2coord_total (i : Nat) : ∃ c, indx2coord i = .ok c ∧ coord2indx c = i := by
  rcases Nat.eq_zero_or_pos i with rfl | hi
  · exact ⟨(0, 0), rfl, rfl⟩
  · obtain ⟨s, p, hs, hp, hi'⟩ := exists_ringIndex i hi
    obtain ⟨hg, -, -⟩ := getGeneration_bounds i hi
    obtain ⟨c, hc, hc'⟩ := coord2indx_ringCoord (getGeneration i) s p hs hp
    refine ⟨c, ?_, ?_⟩
    · rw [← hc, ← indx2coord_ringIndex _ s p hg hs hp, ← hi']
    · rw [hc', ← hi']

theorem coord_eq_ringCoord (x y : Int) (h : (x, y) ≠ (0, 0)) :
    ∃ s p, s < 4 ∧ p < x.natAbs + y.natAbs ∧
      ringCoord (x.natAbs + y.natAbs) s p = .ok (x, y) := by
  have h' : x ≠ 0 ∨ y ≠ 0 := by
    by_contra hc
    push_neg at hc
    exact h (by rw [hc.1, hc.2])
  by_cases c1 : 0 ≤ x ∧ 0 < y
  · refine ⟨0, x.natAbs, by omega, by omega, ?_⟩
    simp only [ringCoord]
    congr 2 <;> omega
  by_cases c2 : 0 < x ∧ y ≤ 0
  · refine ⟨1, y.natAbs, by omega, by omega, ?_⟩
    simp only [ringCoord]
    congr 2 <;> omega
  by_cases c3 : x ≤ 0 ∧ y < 0
  · refine ⟨2, x.natAbs, by omega, by omega, ?_⟩
    simp only [ringCoord]
    congr 2 <;> omega
  · refine ⟨3, y.natAbs, by omega, by omega, ?_⟩
    simp only [ringCoord]
    congr 2 <;> omega

theorem indx2coord_coord2indx_aux (x y : Int) :
    indx2coord (coord2indx (x, y)) = .ok (x, y) := by
  by_cases h : (x, y) = (0, 0)
  · rw [h]; rfl
  · obtain ⟨s, p, hs, hp, hc⟩ := coord_eq_ringCoord x y h
    obtain ⟨c, hc1, hc2⟩ := coord2indx_ringCoord (x.natAbs + y.natAbs) s p hs hp
    rw [hc] at hc1
    cases hc1
    rw [hc2, indx2coord_ringIndex _ s p (by omega) hs hp, hc]


/-! ## Growth of the lattice -/

theorem get_neighbors_eq (site : Nat) : get_neighbors site = .ok (neighborsOf site) := by
  obtain ⟨c, hc, -⟩ := indx2coord_total site
  simp only [neighborsOf, get_neighbors, hc]

theorem pushSites_eq (b : Bool) (n : Nat) (l : InfiniteLattice) :
    InfiniteLattice.pushSites b n l = .ok
      { gen := l.gen
        spins := l.spins ++ List.replicate n b
        neighbors := l.neighbors ++ (List.range' l.spins.length n).map neighborsOf } := by
  induction n generalizing l with
  | zero => simp [InfiniteLattice.pushSites]
  | succ n ih =>
    rw [InfiniteLattice.pushSites, get_neighbors_eq]
    simp only [ih, List.length_append, List.length_singleton, List.append_assoc,
      List.singleton_append, List.replicate_succ, List.range'_succ, List.map_cons]

theorem IncreaseLatticeSize_eq (l : InfiniteLattice) :
    l.IncreaseLatticeSize = .ok (grown l) := by
  simp only [InfiniteLattice.IncreaseLatticeSize, pushSites_eq, grown, neelSpin]

theorem growTimes_eq (n : Nat) (l : InfiniteLattice) :
    InfiniteLattice.growTimes n l = .ok (grown^[n] l) := by
  induction n generalizing l with
  | zero => rfl
  | succ n ih =>
    rw [InfiniteLattice.growTimes, IncreaseLatticeSize_eq]
    simp only [ih, Function.iterate_succ_apply]

theorem construct_eq (G : Nat) :
    InfiniteLattice.construct G = .ok (grown^[G] InfiniteLattice.initial) :=
  growTimes_eq G _

theorem WellFormed_initial : WellFormed InfiniteLattice.initial := by
  refine ⟨rfl, rfl, fun i hi => ?_⟩
  have : i = 0 := by
    simp only [InfiniteLattice.initial, NumPointsUpToGen] at hi
    omega
  subst this
  decide

theorem WellFormed_grown (l : InfiniteLattice) (h : WellFormed l) : WellFormed (grown l) := by
  obtain ⟨hs, hn, hnb⟩ := h
  refine ⟨?_, ?_, fun i hi => ?_⟩
  · simp only [grown, List.length_append, List.length_replicate, hs, NumPointsUpToGen_succ]
    omega
  · simp only [grown, List.length_append, List.length_map, List.length_range', hn,
      NumPointsUpToGen_succ]
    omega
  · simp only [grown] at hi ⊢
    by_cases hlt : i < NumPointsUpToGen l.gen
    · rw [List.getElem?_append_left (by omega)]
      exact hnb i hlt
    · rw [NumPointsUpToGen_succ] at hi
      rw [List.getElem?_append_right (by omega), List.getElem?_map,
        List.getElem?_range' _ _ (by omega)]
      simp only [Option.map_some', hs, hn, Nat.one_mul]
      congr 2
      omega

theorem WellFormed_iterate (n : Nat) : WellFormed (grown^[n] InfiniteLattice.initial) := by
  induction n with
  | zero => exact WellFormed_initial
  | succ n ih =>
    rw [Function.iterate_succ_apply']
    exact WellFormed_grown _ ih

theorem gen_iterate (n : Nat) (l : InfiniteLattice) : (grown^[n] l).gen = l.gen + n := by
  induction n with
  | zero => rfl
  | succ n ih =>
    rw [Function.iterate_succ_apply']
    show (grown^[n] l).gen + 1 = l.gen + (n + 1)
    rw [ih]
    omega

/-- What a call of the non-const `getSpin` that returns normally does. -/
theorem getSpin_ok {l l1 : InfiniteLattice} {site : Nat} {b : Bool}
    (h : l.getSpin site = .ok (b, l1)) :
    l1.spins[site]? = some b ∧
      ((site < l.spins.length ∧ l1 = l) ∨ (l.spins.length ≤ site ∧ l1 = grown l)) := by
  unfold InfiniteLattice.getSpin at h
  by_cases hlt : site < l.spins.length
  · have hge : ¬ site ≥ l.spins.length := by omega
    simp only [hge, if_false] at h
    cases hs : l.spins[site]? with
    | none => simp [hs] at h
    | some b' =>
      simp only [hs, Except.ok.injEq, Prod.mk.injEq] at h
      obtain ⟨rfl, rfl⟩ := h
      exact ⟨hs, Or.inl ⟨hlt, rfl⟩⟩
  · have hge : site ≥ l.spins.length := by omega
    simp only [hge, if_true, IncreaseLatticeSize_eq] at h
    cases hs : (grown l).spins[site]? with
    | none => simp [hs] at h
    | some b' =>
      simp only [hs, Except.ok.injEq, Prod.mk.injEq] at h
      obtain ⟨rfl, rfl⟩ := h
      exact ⟨hs, Or.inr ⟨hge, rfl⟩⟩

/-- What a call of `flipSpins` that returns normally leaves unchanged. -/
theorem flipSpins_frame {l l1 : InfiniteLattice} {cluster : List Nat}
    (h : l.flipSpins cluster = .ok l1) :
    l1.gen = l.gen ∧ l1.neighbors = l.neighbors ∧ l1.spins.length = l.spins.length := by
  induction cluster generalizing l with
  | nil =>
    simp only [InfiniteLattice.flipSpins, Except.ok.injEq] at h
    subst h
    exact ⟨rfl, rfl, rfl⟩
  | cons site rest ih =>
    rw [InfiniteLattice.flipSpins] at h
    cases hs : l.spins[site]? with
    | none => simp [hs] at h
    | some b =>
      simp only [hs] at h
      obtain ⟨h1, h2, h3⟩ := ih h
      exact ⟨h1, h2, by simpa using h3⟩

theorem WellFormed_of_frame {l l1 : InfiniteLattice} (h : WellFormed l)
    (hf : l1.gen = l.gen ∧ l1.neighbors = l.neighbors ∧ l1.spins.length = l.spins.length) :
    WellFormed l1 := by
  obtain ⟨hg, hn, hs⟩ := hf
  obtain ⟨h1, h2, h3⟩ := h
  refine ⟨by rw [hs, hg, h1], by rw [hn, hg, h2], fun i hi => ?_⟩
  rw [hn]
  rw [hg] at hi
  exact h3 i hi

theorem Reachable.wellFormed {l : InfiniteLattice} (h : Reachable l) : WellFormed l := by
  induction h with
  | construct G l hc =>
    rw [construct_eq] at hc
    cases hc
    exact WellFormed_iterate G
  | getSpin l site b l1 _ hget ih =>
    rcases (getSpin_ok hget).2 with ⟨-, rfl⟩ | ⟨-, rfl⟩
    · exact ih
    · exact WellFormed_grown _ ih
  | flipSpins l cluster l1 _ hflip ih =>
    exact WellFormed_of_frame ih (flipSpins_frame hflip)

/-! ## Spins after construction -/

theorem spins_iterate (n : Nat) (i : Nat) (hi : i < NumPointsUpToGen n) :
    (grown^[n] InfiniteLattice.initial).spins[i]? =
      some (decide (getGeneration i % 2 = 0)) := by
  induction n with
  | zero =>
    have : i = 0 := by
      simp only [NumPointsUpToGen] at hi
      omega
    subst this
    decide
  | succ n ih =>
    have hlen : (grown^[n] InfiniteLattice.initial).spins.length = NumPointsUpToGen n := by
      have := (WellFormed_iterate n).1
      rwa [gen_iterate, InfiniteLattice.initial, Nat.zero_add] at this
    have hgen : (grown^[n] InfiniteLattice.initial).gen = n := by
      rw [gen_iterate, InfiniteLattice.initial, Nat.zero_add]
    rw [Function.iterate_succ_apply']
    simp only [grown]
    by_cases hlt : i < NumPointsUpToGen n
    · rw [List.getElem?_append_left (by omega)]
      exact ih hlt
    · rw [NumPointsUpToGen_succ] at hi
      rw [List.getElem?_append_right (by omega), List.getElem?_replicate, hgen, hlen,
        if_pos (by omega)]
      have hg : getGeneration i = n + 1 :=
        getGeneration_of_ring n i (by omega) (by rw [NumPointsUpToGen_succ]; omega)
      rw [hg, neelSpin, SPIN0]
      by_cases hp : (n + 1) % 2 = 0 <;> simp [hp]

/-! ## Flipping -/

theorem flipSpins_eq (l : InfiniteLattice) (cluster : List Nat)
    (h : ∀ s ∈ cluster, s < l.spins.length) :
    l.flipSpins cluster = .ok { l with spins := flipAll l.spins cluster } := by
  induction cluster generalizing l with
  | nil => rfl
  | cons site rest ih =>
    have hs : site < l.spins.length := h site (List.mem_cons_self _ _)
    rw [InfiniteLattice.flipSpins, List.getElem?_eq_getElem hs]
    simp only
    rw [ih]
    · simp only [flipAll, List.getElem?_eq_getElem hs, Option.getD_some]
    · intro s hs'
      simp only [List.length_set]
      exact h s (List.mem_cons_of_mem _ hs')

theorem length_flipAll (spins : List Bool) (cluster : List Nat) :
    (flipAll spins cluster).length = spins.length := by
  induction cluster generalizing spins with
  | nil => rfl
  | cons site rest ih => rw [flipAll, ih, List.length_set]

theorem getElem?_flipAll (spins : List Bool) (cluster : List Nat) (i : Nat) :
    (flipAll spins cluster)[i]? =
      spins[i]?.map (fun b => xor b (decide (cluster.count i % 2 = 1))) := by
  induction cluster generalizing spins with
  | nil =>
    cases h : spins[i]? <;> simp [flipAll, h]
  | cons site rest ih =>
    rw [flipAll, ih, List.getElem?_set]
    by_cases hsi : site = i
    · subst hsi
      by_cases hlt : site < spins.length
      · simp only [if_true, hlt, List.getElem?_eq_getElem hlt, Option.getD_some,
          Option.map_some', List.count_cons_self, Option.some.injEq]
        cases spins[site] <;> by_cases hc : List.count site rest % 2 = 1 <;>
          simp [hc] <;> omega
      · simp only [if_true, hlt, if_false, Option.map_none']
        rw [List.getElem?_eq_none (by omega)]
        rfl
    · simp only [hsi, if_false]
      rw [List.count_cons_of_ne (fun h => hsi h.symm)]

theorem flipAll_flipAll (spins : List Bool) (cluster : List Nat) :
    flipAll (flipAll spins cluster) cluster = spins := by
  apply List.ext_getElem?
  intro i
  rw [getElem?_flipAll, getElem?_flipAll]
  cases spins[i]? with
  | none => rfl
  | some b => simp

/-! ## The cluster search -/

theorem getSpin_length {l l1 : InfiniteLattice} {site : Nat} {b : Bool}
    (h : l.getSpin site = .ok (b, l1)) :
    l.spins.length ≤ l1.spins.length ∧ site < l1.spins.length := by
  obtain ⟨hs, hcase⟩ := getSpin_ok h
  have hlt : site < l1.spins.length := by
    by_contra hc
    rw [List.getElem?_eq_none (by omega)] at hs
    cases hs
  refine ⟨?_, hlt⟩
  rcases hcase with ⟨-, rfl⟩ | ⟨-, rfl⟩
  · exact le_rfl
  · simp only [grown, List.length_append]
    omega

/-- What one pass of the body of the range-for does to the search state. -/
theorem visitNeighbor_ok {draws : Nat → Bool} {current neighbor : Nat} {st st1 : SearchState}
    (h : visitNeighbor draws current st neighbor = .ok st1) :
    (st1.cluster = st.cluster ∨
        (neighbor ∉ st.cluster ∧ st1.cluster = st.cluster ++ [neighbor])) ∧
      st.latt.spins.length ≤ st1.latt.spins.length ∧ 0 < st1.latt.spins.length := by
  unfold visitNeighbor at h
  cases h1 : st.latt.getSpin current with
  | error e => simp [h1] at h
  | ok r1 =>
    obtain ⟨sc, l1⟩ := r1
    simp only [h1] at h
    cases h2 : l1.getSpin neighbor with
    | error e => simp [h2] at h
    | ok r2 =>
      obtain ⟨sn, l2⟩ := r2
      simp only [h2] at h
      have len1 := getSpin_length h1
      have len2 := getSpin_length h2
      have hlen : st.latt.spins.length ≤ l2.spins.length ∧ 0 < l2.spins.length := by omega
      split_ifs at h with hs hmem hbond hdraw <;> cases h <;>
        first
        | exact ⟨Or.inl rfl, hlen⟩
        | exact ⟨Or.inr ⟨hmem, rfl⟩, hlen⟩

theorem visitNeighbors_ok {draws : Nat → Bool} {current : Nat} {nbs : List Nat}
    {st st1 : SearchState} (h : visitNeighbors draws current st nbs = .ok st1) :
    (st.cluster.Nodup → st1.cluster.Nodup) ∧
      st.latt.spins.length ≤ st1.latt.spins.length ∧
      (nbs ≠ [] → 0 < st1.latt.spins.length) := by
  induction nbs generalizing st with
  | nil =>
    simp only [visitNeighbors, Except.ok.injEq] at h
    subst h
    exact ⟨id, le_rfl, fun hne => absurd rfl hne⟩
  | cons nb rest ih =>
    rw [visitNeighbors] at h
    cases h1 : visitNeighbor draws current st nb with
    | error e => simp [h1] at h
    | ok st2 =>
      simp only [h1] at h
      obtain ⟨hc, hlen, hpos⟩ := visitNeighbor_ok h1
      obtain ⟨ihc, ihlen, -⟩ := ih h
      refine ⟨fun hnd => ihc ?_, by omega, fun _ => by omega⟩
      rcases hc with hc | ⟨hmem, hc⟩
      · rw [hc]; exact hnd
      · rw [hc]
        exact List.Nodup.append hnd (List.nodup_singleton _)
          (by simpa [List.disjoint_singleton] using hmem)

theorem searchLoop_ok {draws : Nat → Bool} {fuel currentIdx : Nat} {st st1 : SearchState}
    (h : searchLoop draws fuel currentIdx st = .ok st1) :
    (st.cluster.Nodup → st1.cluster.Nodup) ∧
      st.latt.spins.length ≤ st1.latt.spins.length ∧
      (currentIdx < st.cluster.length → 0 < st1.latt.spins.length) := by
  induction fuel generalizing currentIdx st with
  | zero =>
    rw [searchLoop] at h
    cases hc : st.cluster[currentIdx]? with
    | none =>
      simp only [hc, Except.ok.injEq] at h
      subst h
      refine ⟨id, le_rfl, fun hlt => ?_⟩
      rw [List.getElem?_eq_getElem hlt] at hc
      cases hc
    | some current => simp [hc] at h
  | succ fuel ih =>
    rw [searchLoop] at h
    cases hc : st.cluster[currentIdx]? with
    | none =>
      simp only [hc, Except.ok.injEq] at h
      subst h
      refine ⟨id, le_rfl, fun hlt => ?_⟩
      rw [List.getElem?_eq_getElem hlt] at hc
      cases hc
    | some current =>
      simp only [hc] at h
      cases hn : st.latt.getNeighbors current with
      | error e => simp [hn] at h
      | ok nbs =>
        simp only [hn] at h
        cases hv : visitNeighbors draws current st nbs.toList with
        | error e => simp [hv] at h
        | ok st2 =>
          simp only [hv] at h
          obtain ⟨hc1, hlen1, hpos1⟩ := visitNeighbors_ok hv
          obtain ⟨hc2, hlen2, -⟩ := ih h
          have : 0 < st2.latt.spins.length := hpos1 (by simp [neighbor_t.toList])
          exact ⟨fun hnd => hc2 (hc1 hnd), by omega, fun _ => by omega⟩

/-- A cluster returned by `ClusterSearch` holds no index twice, and the search
does not shrink the lattice and leaves it with at least one site. -/
theorem ClusterSearch_ok {fuel : Nat} {draws : Nat → Bool} {l l1 : InfiniteLattice}
    {cluster : List Nat} (h : ClusterSearch fuel draws l = .ok (cluster, l1)) :
    cluster.Nodup ∧ l.spins.length ≤ l1.spins.length ∧ 0 < l1.spins.length := by
  unfold ClusterSearch at h
  cases hs : searchLoop draws fuel 0
      { latt := l, cluster := [0], bonds_visited := [], drawn := 0 } with
  | error e => simp [hs] at h
  | ok st =>
    simp only [hs, Except.ok.injEq, Prod.mk.injEq] at h
    obtain ⟨rfl, rfl⟩ := h
    obtain ⟨h1, h2, h3⟩ := searchLoop_ok hs
    exact ⟨h1 (List.nodup_singleton 0), h2, h3 (by simp)⟩

/-! ## The counters of `solve` -/

/-- The increment `G_count[site]++` returns only for a site below the size of
the count vector: the padding loop stops one entry short otherwise. -/
theorem countSite_ok {G_count G1 : List Nat} {site : Nat}
    (h : countSite G_count site = .ok G1) :
    site < G_count.length ∧ G1 = G_count.set site (G_count[site]?.getD 0 + 1) := by
  unfold countSite at h
  by_cases hlt : site < G_count.length
  · have h0 : site - G_count.length = 0 := by omega
    simp only [h0, List.replicate_zero, List.append_nil, List.getElem?_eq_getElem hlt,
      Except.ok.injEq] at h
    exact ⟨hlt, by simp only [List.getElem?_eq_getElem hlt, Option.getD_some, h]⟩
  · have hnone : (G_count ++ List.replicate (site - G_count.length) 0)[site]? = none := by
      apply List.getElem?_eq_none
      simp only [List.length_append, List.length_replicate]
      omega
    simp only [hnone] at h
    cases h

theorem countCluster_ok {G_count G1 : List Nat} {cluster : List Nat}
    (h : countCluster G_count cluster = .ok G1) :
    G1.length = G_count.length ∧
      ∀ j, G1[j]? = G_count[j]?.map (fun c => c + cluster.count j) := by
  induction cluster generalizing G_count with
  | nil =>
    simp only [countCluster, Except.ok.injEq] at h
    subst h
    refine ⟨rfl, fun j => ?_⟩
    cases G_count[j]? <;> simp
  | cons site rest ih =>
    rw [countCluster] at h
    cases h1 : countSite G_count site with
    | error e => simp [h1] at h
    | ok G2 =>
      simp only [h1] at h
      obtain ⟨hlt, rfl⟩ := countSite_ok h1
      obtain ⟨hlen, hget⟩ := ih h
      refine ⟨by simpa using hlen, fun j => ?_⟩
      rw [hget j, List.getElem?_set]
      by_cases hsj : site = j
      · subst hsj
        simp only [if_true, hlt, List.getElem?_eq_getElem hlt, Option.getD_some,
          Option.map_some', List.count_cons_self, Option.some.injEq]
        omega
      · simp only [hsj, if_false]
        rw [List.count_cons_of_ne (fun h => hsj h.symm)]

theorem solveLoop_ok {fuel : Nat} {rng : Nat → Nat → Bool} {n i : Nat}
    {l l1 : InfiniteLattice} {G_count G1 : List Nat}
    (h : solveLoop fuel rng n i l G_count = .ok (G1, l1)) (k : Nat)
    (hk : ∀ c ∈ G_count, c ≤ k) :
    (∀ c ∈ G1, c ≤ k + n) ∧ G1.length = G_count.length ∧
      (0 < n ∨ 0 < l.spins.length → 0 < l1.spins.length) := by
  induction n generalizing i l G_count k with
  | zero =>
    simp only [solveLoop, Except.ok.injEq, Prod.mk.injEq] at h
    obtain ⟨rfl, rfl⟩ := h
    exact ⟨hk, rfl, fun hp => hp.resolve_left (by omega)⟩
  | succ n ih =>
    rw [solveLoop] at h
    cases hcs : ClusterSearch fuel (rng i) l with
    | error e => simp [hcs] at h
    | ok r =>
      obtain ⟨cluster, l2⟩ := r
      simp only [hcs] at h
      cases hf : l2.flipSpins cluster with
      | error e => simp [hf] at h
      | ok l3 =>
        simp only [hf] at h
        cases hcc : countCluster G_count cluster with
        | error e => simp [hcc] at h
        | ok G2 =>
          simp only [hcc] at h
          obtain ⟨hnd, -, hpos⟩ := ClusterSearch_ok hcs
          obtain ⟨-, -, hflen⟩ := flipSpins_frame hf
          obtain ⟨hlen, hget⟩ := countCluster_ok hcc
          have hk2 : ∀ c ∈ G2, c ≤ k + 1 := by
            intro c hc
            obtain ⟨j, hj, rfl⟩ := List.getElem_of_mem hc
            have hj' : j < G_count.length := by omega
            have := hget j
            rw [List.getElem?_eq_getElem hj, List.getElem?_eq_getElem hj'] at this
            simp only [Option.map_some', Option.some.injEq] at this
            rw [this]
            have h1 : G_count[j] ≤ k := hk _ (List.getElem_mem _)
            have h2 : cluster.count j ≤ 1 := List.nodup_iff_count_le_one.1 hnd j
            omega
          obtain ⟨r1, r2, r3⟩ := ih h (k + 1) hk2
          refine ⟨fun c hc => ?_, by omega, fun _ => r3 (Or.inr (by omega))⟩
          have := r1 c hc
          omega

/-! ## Reachability through the solver -/

theorem visitNeighbor_reachable {draws : Nat → Bool} {current neighbor : Nat}
    {st st1 : SearchState} (h : visitNeighbor draws current st neighbor = .ok st1)
    (hr : Reachable st.latt) : Reachable st1.latt := by
  unfold visitNeighbor at h
  cases h1 : st.latt.getSpin current with
  | error e => simp [h1] at h
  | ok r1 =>
    obtain ⟨sc, l1⟩ := r1
    simp only [h1] at h
    cases h2 : l1.getSpin neighbor with
    | error e => simp [h2] at h
    | ok r2 =>
      obtain ⟨sn, l2⟩ := r2
      simp only [h2] at h
      have hr2 : Reachable l2 :=
        Reachable.getSpin l1 neighbor sn l2 (Reachable.getSpin _ current sc l1 hr h1) h2
      split_ifs at h <;> cases h <;> exact hr2

theorem visitNeighbors_reachable {draws : Nat → Bool} {current : Nat} {nbs : List Nat}
    {st st1 : SearchState} (h : visitNeighbors draws current st nbs = .ok st1)
    (hr : Reachable st.latt) : Reachable st1.latt := by
  induction nbs generalizing st with
  | nil =>
    simp only [visitNeighbors, Except.ok.injEq] at h
    subst h
    exact hr
  | cons nb rest ih =>
    rw [visitNeighbors] at h
    cases h1 : visitNeighbor draws current st nb with
    | error e => simp [h1] at h
    | ok st2 =>
      simp only [h1] at h
      exact ih h (visitNeighbor_reachable h1 hr)

theorem searchLoop_reachable {draws : Nat → Bool} {fuel currentIdx : Nat}
    {st st1 : SearchState} (h : searchLoop draws fuel currentIdx st = .ok st1)
    (hr : Reachable st.latt) : Reachable st1.latt := by
  induction fuel generalizing currentIdx st with
  | zero =>
    rw [searchLoop] at h
    cases hc : st.cluster[currentIdx]? with
    | none =>
      simp only [hc, Except.ok.injEq] at h
      subst h
      exact hr
    | some current => simp [hc] at h
  | succ fuel ih =>
    rw [searchLoop] at h
    cases hc : st.cluster[currentIdx]? with
    | none =>
      simp only [hc, Except.ok.injEq] at h
      subst h
      exact hr
    | some current =>
      simp only [hc] at h
      cases hn : st.latt.getNeighbors current with
      | error e => simp [hn] at h
      | ok nbs =>
        simp only [hn] at h
        cases hv : visitNeighbors draws current st nbs.toList with
        | error e => simp [hv] at h
        | ok st2 =>
          simp only [hv] at h
          exact ih h (visitNeighbors_reachable hv hr)

theorem ClusterSearch_reachable {fuel : Nat} {draws : Nat → Bool} {l l1 : InfiniteLattice}
    {cluster : List Nat} (h : ClusterSearch fuel draws l = .ok (cluster, l1))
    (hr : Reachable l) : Reachable l1 := by
  unfold ClusterSearch at h
  cases hs : searchLoop draws fuel 0
      { latt := l, cluster := [0], bonds_visited := [], drawn := 0 } with
  | error e => simp [hs] at h
  | ok st =>
    simp only [hs, Except.ok.injEq, Prod.mk.injEq] at h
    obtain ⟨-, rfl⟩ := h
    exact searchLoop_reachable hs hr

theorem solveLoop_reachable {fuel : Nat} {rng : Nat → Nat → Bool} {n i : Nat}
    {l l1 : InfiniteLattice} {G_count G1 : List Nat}
    (h : solveLoop fuel rng n i l G_count = .ok (G1, l1)) (hr : Reachable l) :
    Reachable l1 := by
  induction n generalizing i l G_count with
  | zero =>
    simp only [solveLoop, Except.ok.injEq, Prod.mk.injEq] at h
    obtain ⟨-, rfl⟩ := h
    exact hr
  | succ n ih =>
    rw [solveLoop] at h
    cases hcs : ClusterSearch fuel (rng i) l with
    | error e => simp [hcs] at h
    | ok r =>
      obtain ⟨cluster, l2⟩ := r
      simp only [hcs] at h
      cases hf : l2.flipSpins cluster with
      | error e => simp [hf] at h
      | ok l3 =>
        simp only [hf] at h
        cases hcc : countCluster G_count cluster with
        | error e => simp [hcc] at h
        | ok G2 =>
          simp only [hcc] at h
          exact ih h (Reachable.flipSpins l2 cluster l3 (ClusterSearch_reachable hcs hr) hf)

/-- What `solve` returns is the count vector of the iteration loop, each
count divided by the number of iterations. -/
theorem solve_ok {fuel : Nat} {rng : Nat → Nat → Bool} {l l1 : InfiniteLattice} {N : Nat}
    {G : List ℚ} (h : solve fuel rng l N = .ok (G, l1)) :
    ∃ G_count, solveLoop fuel rng N 0 l [0] = .ok (G_count, l1) ∧
      G = G_count.map (fun (c : Nat) => (c : ℚ) / (N : ℚ)) := by
  unfold solve at h
  cases hs : solveLoop fuel rng N 0 l [0] with
  | error e => simp [hs] at h
  | ok r =>
    obtain ⟨G_count, l2⟩ := r
    simp only [hs, Except.ok.injEq, Prod.mk.injEq] at h
    obtain ⟨rfl, rfl⟩ := h
    exact ⟨G_count, rfl, rfl⟩

/-- One iteration with every draw rejected, from the lattice of generation 0. -/
theorem solve_initial_one :
    solve 10 (fun _ _ => false) InfiniteLattice.initial 1 =
      .ok ([1], ⟨1, [false, false, false, false, false],
        [(1, 2, 3, 4), (5, 6, 0, 12), (6, 7, 8, 0), (0, 8, 9, 10), (12, 0, 10, 11)]⟩) := by
  have h : solveLoop 10 (fun _ _ => false) 1 0 InfiniteLattice.initial [0] =
      .ok ([1], ⟨1, [false, false, false, false, false],
        [(1, 2, 3, 4), (5, 6, 0, 12), (6, 7, 8, 0), (0, 8, 9, 10), (12, 0, 10, 11)]⟩) := by
    decide
  simp [solve, h]

/-! ## Generations of neighbours -/

theorem getGeneration_ringIndex (g s p : Nat) (hg : 1 ≤ g) (hs : s < 4) (hp : p < g) :
    getGeneration (ringIndex g s p) = g := by
  obtain ⟨k, rfl⟩ : ∃ k, g = k + 1 := ⟨g - 1, by omega⟩
  have hsg : s * (k + 1) + p < 4 * (k + 1) := by
    have : s * (k + 1) ≤ 3 * (k + 1) := Nat.mul_le_mul_right _ (by omega)
    omega
  apply getGeneration_of_ring
  · simp only [ringIndex, Nat.add_sub_cancel]; omega
  · rw [NumPointsUpToGen_succ]; simp only [ringIndex, Nat.add_sub_cancel]; omega

/-- The generation of the index of a coordinate is its distance from the
origin, `|x| + |y|`. -/
theorem getGeneration_coord2indx (x y : Int) :
    getGeneration (coord2indx (x, y)) = x.natAbs + y.natAbs := by
  by_cases h : (x, y) = (0, 0)
  · simp only [Prod.mk.injEq] at h
    obtain ⟨rfl, rfl⟩ := h
    rfl
  · obtain ⟨s, p, hs, hp, hc⟩ := coord_eq_ringCoord x y h
    obtain ⟨c, hc1, hc2⟩ := coord2indx_ringCoord (x.natAbs + y.natAbs) s p hs hp
    rw [hc] at hc1
    cases hc1
    rw [hc2, getGeneration_ringIndex _ s p (by omega) hs hp]

theorem natAbs_of_indx2coord {i : Nat} {c : coord_t} (h : indx2coord i = .ok c) :
    c.1.natAbs + c.2.natAbs = getGeneration i := by
  obtain ⟨c', hc', hi⟩ := indx2coord_total i
  rw [h] at hc'
  cases hc'
  rw [← getGeneration_coord2indx c.1 c.2, Prod.mk.eta, hi]

/-- Every neighbour of a site lies in the ring just outside or just inside
the site's own ring. -/
theorem getGeneration_neighbor {i n : Nat} (hn : n ∈ (neighborsOf i).toList) :
    getGeneration n = getGeneration i + 1 ∨ getGeneration n + 1 = getGeneration i := by
  obtain ⟨c, hc, -⟩ := indx2coord_total i
  have hg := natAbs_of_indx2coord hc
  simp only [neighborsOf, get_neighbors, hc, neighbor_t.toList, List.mem_cons,
    List.mem_singleton, List.not_mem_nil, or_false] at hn
  rcases hn with rfl | rfl | rfl | rfl <;> rw [getGeneration_coord2indx] <;> omega

/-- The four neighbours of a site are four different sites. -/
theorem nodup_neighborsOf (i : Nat) : (neighborsOf i).toList.Nodup := by
  obtain ⟨c, hc, -⟩ := indx2coord_total i
  have inj : ∀ a b : coord_t, coord2indx a = coord2indx b → a = b := by
    intro a b hab
    have ha := indx2coord_coord2indx_aux a.1 a.2
    have hb := indx2coord_coord2indx_aux b.1 b.2
    simp only [Prod.mk.eta] at ha hb
    rw [hab, hb] at ha
    cases ha
    rfl
  have ne : ∀ a b : coord_t, a ≠ b → coord2indx a ≠ coord2indx b :=
    fun a b hab h => hab (inj a b h)
  simp only [neighborsOf, get_neighbors, hc, neighbor_t.toList, List.nodup_cons,
    List.mem_cons, List.mem_singleton, List.not_mem_nil, or_false, not_or, not_false_eq_true,
    List.nodup_nil, and_true]
  refine ⟨⟨?_, ?_, ?_⟩, ⟨?_, ?_⟩, ?_⟩ <;> apply ne <;> intro h <;>
    simp only [Prod.mk.injEq] at h <;> omega

theorem lt_NumPointsUpToGen_iff (i g : Nat) : i < NumPointsUpToGen g ↔ getGeneration i ≤ g := by
  rcases Nat.eq_zero_or_pos i with rfl | hi
  · simp only [getGeneration, if_true, Nat.zero_le, iff_true]
    exact NumPointsUpToGen_pos g
  · obtain ⟨h1, h2, h3⟩ := getGeneration_bounds i hi
    constructor
    · intro h
      by_contra hlt
      have := NumPointsUpToGen_mono (show g ≤ getGeneration i - 1 by omega)
      omega
    · intro h
      have := NumPointsUpToGen_mono h
      omega

theorem neelSpin_succ (g : Nat) : neelSpin (g + 1) ≠ neelSpin g := by
  unfold neelSpin SPIN0
  rcases Nat.mod_two_eq_zero_or_one g with h | h
  · have h' : (g + 1) % 2 = 1 := by omega
    simp [h, h']
  · have h' : (g + 1) % 2 = 0 := by omega
    simp [h, h']

/-! ## Reads during the search -/

theorem getSpin_of_lt {l : InfiniteLattice} {i : Nat} {b : Bool}
    (h : l.spins[i]? = some b) : l.getSpin i = .ok (b, l) := by
  have hlt : i < l.spins.length := by
    by_contra hc
    rw [List.getElem?_eq_none (by omega)] at h
    cases h
  have hge : ¬ i ≥ l.spins.length := by omega
  simp only [InfiniteLattice.getSpin, hge, if_false, h]

theorem virtualSpin_of_ge {l0 : InfiniteLattice} {i : Nat} (h : l0.spins.length ≤ i) :
    virtualSpin l0 i = neelSpin (getGeneration i) := by
  simp only [virtualSpin, List.getElem?_eq_none h]

/-- Growth keeps the stored spins equal to the virtual spins of the lattice
the search started on. -/
theorem spin_eq_grown {l0 l : InfiniteLattice} (hl : WellFormed l)
    (hlen : l0.spins.length ≤ l.spins.length)
    (hspin : ∀ i, i < l.spins.length → l.spins[i]? = some (virtualSpin l0 i)) :
    ∀ i, i < (grown l).spins.length → (grown l).spins[i]? = some (virtualSpin l0 i) := by
  intro i hi
  obtain ⟨hs, -, -⟩ := hl
  simp only [grown, List.length_append, List.length_replicate] at hi
  simp only [grown]
  by_cases hlt : i < l.spins.length
  · rw [List.getElem?_append_left hlt]
    exact hspin i hlt
  · rw [List.getElem?_append_right (by omega), List.getElem?_replicate, if_pos (by omega),
      virtualSpin_of_ge (by omega),
      getGeneration_of_ring l.gen i (by omega) (by rw [NumPointsUpToGen_succ]; omega)]

/-- The read of the spin of a site at most one ring outside the lattice. -/
theorem getSpin_inv {l0 l : InfiniteLattice} (hr : Reachable l)
    (hlen : l0.spins.length ≤ l.spins.length)
    (hspin : ∀ i, i < l.spins.length → l.spins[i]? = some (virtualSpin l0 i))
    {n : Nat} (hn : getGeneration n ≤ l.gen + 1) :
    ∃ l2, l.getSpin n = .ok (virtualSpin l0 n, l2) ∧ Reachable l2 ∧ l.gen ≤ l2.gen ∧
      (l2.gen ≤ l.gen ∨ l2.gen ≤ getGeneration n) ∧
      l.spins.length ≤ l2.spins.length ∧ n < l2.spins.length ∧
      ∀ i, i < l2.spins.length → l2.spins[i]? = some (virtualSpin l0 i) := by
  have hwf := hr.wellFormed
  by_cases hlt : n < l.spins.length
  · have h := getSpin_of_lt (hspin n hlt)
    exact ⟨l, h, hr, le_rfl, Or.inl le_rfl, le_rfl, hlt, hspin⟩
  · have hspin2 := spin_eq_grown hwf hlen hspin
    have hlen2 : (grown l).spins.length = NumPointsUpToGen (l.gen + 1) :=
      (WellFormed_grown l hwf).1
    have hn2 : n < (grown l).spins.length := by
      rw [hlen2, lt_NumPointsUpToGen_iff]
      exact hn
    have hget : l.getSpin n = .ok (virtualSpin l0 n, grown l) := by
      have hge : n ≥ l.spins.length := by omega
      simp only [InfiniteLattice.getSpin, hge, if_true, IncreaseLatticeSize_eq,
        hspin2 n hn2]
    have hgn : l.gen + 1 ≤ getGeneration n := by
      by_contra hc
      have : n < NumPointsUpToGen l.gen := (lt_NumPointsUpToGen_iff n l.gen).2 (by omega)
      rw [← hwf.1] at this
      exact hlt this
    refine ⟨grown l, hget, Reachable.getSpin l n _ _ hr hget, by simp [grown],
      Or.inr hgn, ?_, hn2, hspin2⟩
    simp only [grown, List.length_append]
    omega

theorem visitNeighbor_eq {draws : Nat → Bool} {c n : Nat} {st : SearchState}
    {sc sn : Bool} {l1 l2 : InfiniteLattice} (h1 : st.latt.getSpin c = .ok (sc, l1))
    (h2 : l1.getSpin n = .ok (sn, l2)) :
    visitNeighbor draws c st n =
      if sc = sn then
        if n ∈ st.cluster then .ok { st with latt := l2 }
        else
          if (min c n, max c n) ∈ st.bonds_visited then .ok { st with latt := l2 }
          else if draws st.drawn then
            .ok { latt := l2, cluster := st.cluster ++ [n],
                  bonds_visited := (min c n, max c n) :: st.bonds_visited,
                  drawn := st.drawn + 1 }
          else
            .ok { latt := l2, cluster := st.cluster,
                  bonds_visited := (min c n, max c n) :: st.bonds_visited,
                  drawn := st.drawn + 1 }
      else .ok { st with latt := l2 } := by
  simp only [visitNeighbor, h1, h2]

theorem visitNeighborNoBonds_eq {draws : Nat → Bool} {c n : Nat} {st : SearchState}
    {sc sn : Bool} {l1 l2 : InfiniteLattice} (h1 : st.latt.getSpin c = .ok (sc, l1))
    (h2 : l1.getSpin n = .ok (sn, l2)) :
    visitNeighborNoBonds draws c st n =
      if sc = sn then
        if n ∈ st.cluster then .ok { st with latt := l2 }
        else if draws st.drawn then
          .ok { latt := l2, cluster := st.cluster ++ [n],
                bonds_visited := st.bonds_visited, drawn := st.drawn + 1 }
        else
          .ok { latt := l2, cluster := st.cluster,
                bonds_visited := st.bonds_visited, drawn := st.drawn + 1 }
      else .ok { st with latt := l2 } := by
  simp only [visitNeighborNoBonds, h1, h2]

theorem visitNeighborStrict_eq {draws : Nat → Bool} {c n : Nat} {st : SearchState}
    {sc sn : Bool} {l1 l2 : InfiniteLattice} (h1 : st.latt.getSpin c = .ok (sc, l1))
    (h2 : l1.getSpin n = .ok (sn, l2)) :
    visitNeighborStrict draws c st n =
      if sc = sn then
        if n ∈ st.cluster then .ok (some { st with latt := l2 })
        else
          if (min c n, max c n) ∈ st.bonds_visited then .ok none
          else if draws st.drawn then
            .ok (some { latt := l2, cluster := st.cluster ++ [n],
                        bonds_visited := (min c n, max c n) :: st.bonds_visited,
                        drawn := st.drawn + 1 })
          else
            .ok (some { latt := l2, cluster := st.cluster,
                        bonds_visited := (min c n, max c n) :: st.bonds_visited,
                        drawn := st.drawn + 1 })
      else .ok (some { st with latt := l2 }) := by
  simp only [visitNeighborStrict, h1, h2]

/-! ## One visit keeps the invariant -/

theorem not_mem_take_of_nodup {l : List Nat} {idx c : Nat} (hnd : l.Nodup)
    (hc : l[idx]? = some c) : c ∉ l.take idx := by
  rw [← List.take_append_drop idx l, List.nodup_append] at hnd
  have hmem : c ∈ l.drop idx := by
    apply List.getElem?_mem (n := 0)
    rw [List.getElem?_drop]
    exact hc
  exact fun h => hnd.2.2 h hmem

theorem mem_take_succ {l : List Nat} {idx c : Nat} (hc : l[idx]? = some c) (a : Nat) :
    a ∈ l.take (idx + 1) ↔ a ∈ l.take idx ∨ a = c := by
  rw [List.take_succ, hc]
  simp

theorem lt_length_of_getElem? {l : List Nat} {idx c : Nat} (hc : l[idx]? = some c) :
    idx < l.length := by
  by_contra h
  rw [List.getElem?_eq_none (by omega)] at hc
  cases hc

/-- One pass of the body of the range-for, for a neighbour not visited yet:
it returns, the visited-bond test does not reject, the search without the
bond set makes the same step, and the invariant holds afterwards. -/
theorem visitNeighbor_inv {l0 : InfiniteLattice} (hl0 : Reachable l0) {draws : Nat → Bool}
    {idx c n : Nat} {done : List Nat} {st : SearchState}
    (hinv : VisitInv l0 draws idx c done st) (hn : n ∈ (neighborsOf c).toList)
    (hnd : n ∉ done) :
    ∃ st1, visitNeighbor draws c st n = .ok st1 ∧
      visitNeighborNoBonds draws c { st with bonds_visited := [] } n =
        .ok { st1 with bonds_visited := [] } ∧
      visitNeighborStrict draws c st n = .ok (some st1) ∧
      VisitInv l0 draws idx c (done ++ [n]) st1 := by
  obtain ⟨hb, hcur, hbonds, hclosed, hcd⟩ := hinv
  have hidx : idx < st.cluster.length := lt_length_of_getElem? hcur
  have hc : c ∈ st.cluster := List.getElem?_mem hcur
  have hwf0 := hl0.wellFormed
  have hwf := hb.reach.wellFormed
  have hlen0 : l0.spins.length ≤ st.latt.spins.length := by
    rw [hwf0.1, hwf.1]
    exact NumPointsUpToGen_mono hb.gen_ge
  have hclt := hb.mem_lt c hc
  have h1 : st.latt.getSpin c = .ok (virtualSpin l0 c, st.latt) :=
    getSpin_of_lt (hb.spin_eq c hclt)
  have hcgen : getGeneration c ≤ st.latt.gen :=
    (lt_NumPointsUpToGen_iff _ _).1 (by rw [← hwf.1]; exact hclt)
  have hcgen0 := hb.mem_gen c hc
  have hgenle := hb.gen_le
  have hng := getGeneration_neighbor hn
  obtain ⟨l2, h2, hr2, hge2, hle2, hlen2, hn2, hspin2⟩ :=
    getSpin_inv hb.reach hlen0 hb.spin_eq (n := n) (by omega)
  have hgen2 : l2.gen ≤ l0.gen + 2 := by omega
  have hcs : virtualSpin l0 c = virtualSpin l0 0 := hb.mem_spin c hc
  have hnc : n ≠ c := by
    intro h
    subst h
    omega
  have hctake : c ∉ st.cluster.take idx := not_mem_take_of_nodup hb.nodup hcur
  have hne : st.cluster ≠ [] := fun h => by rw [h] at hc; cases hc
  have base2 : SearchInv l0 draws { st with latt := l2 } :=
    { reach := hr2, gen_ge := le_trans hb.gen_ge hge2, gen_le := hgen2, spin_eq := hspin2
      mem_lt := fun m hm => lt_of_lt_of_le (hb.mem_lt m hm) hlen2
      mem_gen := hb.mem_gen, mem_spin := hb.mem_spin, mem_conn := hb.mem_conn
      nodup := hb.nodup, head := hb.head, rejected := hb.rejected }
  have hbonds2 : ∀ bond ∈ st.bonds_visited, ∃ a b, bond = (min a b, max a b) ∧
      (a ∈ st.cluster.take idx ∨ (a = c ∧ b ∈ done ++ [n])) := by
    intro bond hbm
    obtain ⟨a, b, hab, h⟩ := hbonds bond hbm
    exact ⟨a, b, hab, h.imp_right (fun h => ⟨h.1, List.mem_append_left _ h.2⟩)⟩
  rw [visitNeighbor_eq h1 h2,
    @visitNeighborNoBonds_eq draws c n { st with bonds_visited := [] } _ _ _ _ h1 h2,
    visitNeighborStrict_eq h1 h2]
  by_cases hs : virtualSpin l0 c = virtualSpin l0 n
  · by_cases hm : n ∈ st.cluster
    · simp only [hs, hm, if_true]
      refine ⟨_, rfl, rfl, rfl, ?_⟩
      refine { base := base2, current := hcur, bonds := hbonds2, closed := hclosed,
               closed_done := fun hall n' hn' hs' => ?_ }
      rcases List.mem_append.1 hn' with h | h
      · exact hcd hall n' h hs'
      · rw [List.mem_singleton.1 h]
        exact hm
    · have hbond : (min c n, max c n) ∉ st.bonds_visited := by
        intro hbm
        obtain ⟨a, b, hab, h⟩ := hbonds _ hbm
        simp only [Prod.mk.injEq] at hab
        have hcase : (a = c ∧ b = n) ∨ (a = n ∧ b = c) := by omega
        rcases h with h | ⟨h, hbd⟩
        · rcases hcase with ⟨rfl, -⟩ | ⟨rfl, -⟩
          · exact hctake h
          · exact hm (List.mem_of_mem_take h)
        · rcases hcase with ⟨-, rfl⟩ | ⟨rfl, -⟩
          · exact hnd hbd
          · exact hnc h
      have hngen : getGeneration n ≤ l0.gen + 1 := by
        by_contra hcon
        have hc1 : getGeneration c = l0.gen + 1 := by omega
        have hn1 : getGeneration n = l0.gen + 2 := by omega
        have hcge : l0.spins.length ≤ c := by
          by_contra hlt
          have := (lt_NumPointsUpToGen_iff c l0.gen).1 (by rw [← hwf0.1]; omega)
          omega
        have hnge : l0.spins.length ≤ n := by
          by_contra hlt
          have := (lt_NumPointsUpToGen_iff n l0.gen).1 (by rw [← hwf0.1]; omega)
          omega
        rw [virtualSpin_of_ge hcge, virtualSpin_of_ge hnge, hc1, hn1] at hs
        exact neelSpin_succ (l0.gen + 1) hs.symm
      have htake : List.take idx (st.cluster ++ [n]) = List.take idx st.cluster :=
        List.take_append_of_le_length (le_of_lt hidx)
      by_cases hd : draws st.drawn = true
      · simp only [hs, hm, hbond, hd, if_true, if_false, List.not_mem_nil]
        refine ⟨_, rfl, rfl, rfl, ?_⟩
        have base3 : SearchInv l0 draws
            { latt := l2, cluster := st.cluster ++ [n],
              bonds_visited := (min c n, max c n) :: st.bonds_visited,
              drawn := st.drawn + 1 } :=
          { reach := hr2, gen_ge := le_trans hb.gen_ge hge2, gen_le := hgen2
            spin_eq := hspin2
            mem_lt := fun m hm' => by
              rcases List.mem_append.1 hm' with h | h
              · exact lt_of_lt_of_le (hb.mem_lt m h) hlen2
              · rw [List.mem_singleton.1 h]; exact hn2
            mem_gen := fun m hm' => by
              rcases List.mem_append.1 hm' with h | h
              · exact hb.mem_gen m h
              · rw [List.mem_singleton.1 h]; exact hngen
            mem_spin := fun m hm' => by
              rcases List.mem_append.1 hm' with h | h
              · exact hb.mem_spin m h
              · rw [List.mem_singleton.1 h, ← hs, hcs]
            mem_conn := fun m hm' => by
              rcases List.mem_append.1 hm' with h | h
              · exact hb.mem_conn m h
              · rw [List.mem_singleton.1 h]
                exact Connected.step c n (hb.mem_conn c hc) hn (by rw [← hs, hcs])
            nodup := List.Nodup.append hb.nodup (List.nodup_singleton _)
              (by simpa [List.disjoint_singleton] using hm)
            head := by
              show (st.cluster ++ [n]).head? = some 0
              rw [List.head?_append_of_ne_nil _ hne]
              exact hb.head
            rejected := fun hall => by
              rw [hall st.drawn] at hd
              cases hd }
        refine { base := base3, current := ?_, bonds := ?_, closed := ?_, closed_done := ?_ }
        · show (st.cluster ++ [n])[idx]? = some c
          rw [List.getElem?_append_left hidx]
          exact hcur
        · intro bond hbm
          show ∃ a b, bond = (min a b, max a b) ∧
            (a ∈ List.take idx (st.cluster ++ [n]) ∨ (a = c ∧ b ∈ done ++ [n]))
          rw [htake]
          rcases List.mem_cons.1 hbm with h | h
          · exact ⟨c, n, h, Or.inr ⟨rfl, List.mem_append_right _ (List.mem_singleton_self n)⟩⟩
          · exact hbonds2 bond h
        · intro hall a ha n' hn' hs'
          show n' ∈ st.cluster ++ [n]
          have ha' : a ∈ List.take idx st.cluster := by rw [← htake]; exact ha
          exact List.mem_append_left _ (hclosed hall a ha' n' hn' hs')
        · intro hall n' hn' hs'
          show n' ∈ st.cluster ++ [n]
          rcases List.mem_append.1 hn' with h | h
          · exact List.mem_append_left _ (hcd hall n' h hs')
          · exact List.mem_append_right _ h
      · simp only [hs, hm, hbond, hd, if_true, if_false, List.not_mem_nil]
        refine ⟨_, rfl, rfl, rfl, ?_⟩
        have base3 : SearchInv l0 draws
            { latt := l2, cluster := st.cluster,
              bonds_visited := (min c n, max c n) :: st.bonds_visited,
              drawn := st.drawn + 1 } :=
          { reach := hr2, gen_ge := le_trans hb.gen_ge hge2, gen_le := hgen2
            spin_eq := hspin2
            mem_lt := fun m hm' => lt_of_lt_of_le (hb.mem_lt m hm') hlen2
            mem_gen := hb.mem_gen, mem_spin := hb.mem_spin, mem_conn := hb.mem_conn
            nodup := hb.nodup, head := hb.head, rejected := hb.rejected }
        refine { base := base3, current := hcur, bonds := ?_, closed := hclosed,
                 closed_done := ?_ }
        · intro bond hbm
          rcases List.mem_cons.1 hbm with h | h
          · exact ⟨c, n, h, Or.inr ⟨rfl, List.mem_append_right _ (List.mem_singleton_self n)⟩⟩
          · exact hbonds2 bond h
        · intro hall n' hn' hs'
          rcases List.mem_append.1 hn' with h | h
          · exact hcd hall n' h hs'
          · exact absurd (hall st.drawn) hd
  · simp only [hs, if_false]
    refine ⟨_, rfl, rfl, rfl, ?_⟩
    refine { base := base2, current := hcur, bonds := hbonds2, closed := hclosed,
             closed_done := fun hall n' hn' hs' => ?_ }
    rcases List.mem_append.1 hn' with h | h
    · exact hcd hall n' h hs'
    · rw [List.mem_singleton.1 h] at hs'
      exact absurd (hcs.trans hs'.symm) hs

/-! ## The loops keep the invariant -/

theorem visitNeighbors_inv {l0 : InfiniteLattice} (hl0 : Reachable l0) {draws : Nat → Bool}
    {idx c : Nat} {rest done : List Nat} {st : SearchState}
    (hinv : VisitInv l0 draws idx c done st) (hnodup : (done ++ rest).Nodup)
    (hsub : ∀ n ∈ rest, n ∈ (neighborsOf c).toList) :
    ∃ st1, visitNeighbors draws c st rest = .ok st1 ∧
      visitNeighborsNoBonds draws c { st with bonds_visited := [] } rest =
        .ok { st1 with bonds_visited := [] } ∧
      visitNeighborsStrict draws c st rest = .ok (some st1) ∧
      VisitInv l0 draws idx c (done ++ rest) st1 := by
  induction rest generalizing done st with
  | nil =>
    refine ⟨st, rfl, rfl, rfl, ?_⟩
    rw [List.append_nil]
    exact hinv
  | cons n rest ih =>
    have hnd : n ∉ done := by
      intro h
      exact (List.nodup_append.1 hnodup).2.2 h (List.mem_cons_self _ _)
    obtain ⟨st1, e1, e2, e3, hinv1⟩ :=
      visitNeighbor_inv hl0 hinv (hsub n (List.mem_cons_self _ _)) hnd
    have hnodup1 : ((done ++ [n]) ++ rest).Nodup := by
      rw [List.append_assoc]
      exact hnodup
    obtain ⟨st2, f1, f2, f3, hinv2⟩ :=
      ih hinv1 hnodup1 (fun m hm => hsub m (List.mem_cons_of_mem _ hm))
    refine ⟨st2, ?_, ?_, ?_, ?_⟩
    · rw [visitNeighbors, e1]
      exact f1
    · rw [visitNeighborsNoBonds, e2]
      exact f2
    · rw [visitNeighborsStrict, e3]
      exact f3
    · rw [List.append_assoc] at hinv2
      exact hinv2

theorem length_le_of_nodup_of_lt {l : List Nat} {N : Nat} (hnd : l.Nodup)
    (hlt : ∀ x ∈ l, x < N) : l.length ≤ N := by
  rw [← List.toFinset_card_of_nodup hnd, ← Finset.card_range N]
  apply Finset.card_le_card
  intro x hx
  rw [Finset.mem_range]
  exact hlt x (List.mem_toFinset.1 hx)

/-- The cluster of a search state that satisfies the invariant is not longer
than the number of sites of generation at most `G + 1`. -/
theorem SearchInv.length_le {l0 : InfiniteLattice} {draws : Nat → Bool} {st : SearchState}
    (h : SearchInv l0 draws st) : st.cluster.length ≤ NumPointsUpToGen (l0.gen + 1) :=
  length_le_of_nodup_of_lt h.nodup
    (fun m hm => (lt_NumPointsUpToGen_iff m _).2 (h.mem_gen m hm))

theorem getNeighbors_of_inv {l0 : InfiniteLattice} {draws : Nat → Bool} {st : SearchState}
    (h : SearchInv l0 draws st) {c : Nat} (hc : c ∈ st.cluster) :
    st.latt.getNeighbors c = .ok (neighborsOf c) := by
  obtain ⟨h1, -, h3⟩ := h.reach.wellFormed
  have := h.mem_lt c hc
  rw [InfiniteLattice.getNeighbors, h3 c (by omega)]

/-- The `while` loop from a state that satisfies the invariant: it returns a
state that satisfies the invariant with every member done, or it runs out of
fuel; the search without the bond set and the strict search do the same. -/
theorem searchLoop_inv {l0 : InfiniteLattice} (hl0 : Reachable l0) {draws : Nat → Bool}
    (fuel : Nat) {idx : Nat} {st : SearchState} (hinv : LoopInv l0 draws idx st) :
    (∃ st1, searchLoop draws fuel idx st = .ok st1 ∧
      searchLoopNoBonds draws fuel idx { st with bonds_visited := [] } =
        .ok { st1 with bonds_visited := [] } ∧
      searchLoopStrict draws fuel idx st = .ok (some st1) ∧
      LoopInv l0 draws st1.cluster.length st1) ∨
    (searchLoop draws fuel idx st = .error Fault.outOfFuel ∧
      searchLoopNoBonds draws fuel idx { st with bonds_visited := [] } =
        .error Fault.outOfFuel ∧
      searchLoopStrict draws fuel idx st = .error Fault.outOfFuel ∧
      fuel + idx < NumPointsUpToGen (l0.gen + 1)) := by
  induction fuel generalizing idx st with
  | zero =>
    rw [searchLoop, searchLoopNoBonds, searchLoopStrict]
    cases hc : st.cluster[idx]? with
    | none =>
      left
      refine ⟨st, rfl, rfl, rfl, ?_⟩
      have hle : st.cluster.length ≤ idx := by
        by_contra hlt
        rw [List.getElem?_eq_getElem (by omega)] at hc
        cases hc
      have ht : List.take idx st.cluster = List.take st.cluster.length st.cluster := by
        rw [List.take_of_length_le hle, List.take_length]
      exact { base := hinv.base, bonds := by rw [← ht]; exact hinv.bonds,
              closed := by rw [← ht]; exact hinv.closed }
    | some c =>
      right
      have := lt_length_of_getElem? hc
      have := hinv.base.length_le
      exact ⟨rfl, rfl, rfl, by omega⟩
  | succ fuel ih =>
    rw [searchLoop, searchLoopNoBonds, searchLoopStrict]
    cases hc : st.cluster[idx]? with
    | none =>
      left
      refine ⟨st, rfl, rfl, rfl, ?_⟩
      have hle : st.cluster.length ≤ idx := by
        by_contra hlt
        rw [List.getElem?_eq_getElem (by omega)] at hc
        cases hc
      have ht : List.take idx st.cluster = List.take st.cluster.length st.cluster := by
        rw [List.take_of_length_le hle, List.take_length]
      exact { base := hinv.base, bonds := by rw [← ht]; exact hinv.bonds,
              closed := by rw [← ht]; exact hinv.closed }
    | some c =>
      have hcm : c ∈ st.cluster := List.getElem?_mem hc
      have hnb := getNeighbors_of_inv hinv.base hcm
      have hv : VisitInv l0 draws idx c [] st :=
        { base := hinv.base, current := hc
          bonds := fun bond hb => by
            obtain ⟨a, b, hab, h⟩ := hinv.bonds bond hb
            exact ⟨a, b, hab, Or.inl h⟩
          closed := hinv.closed
          closed_done := fun _ n hn => absurd hn (List.not_mem_nil n) }
      obtain ⟨st1, e1, e2, e3, hv1⟩ :=
        @visitNeighbors_inv l0 hl0 draws idx c (neighborsOf c).toList [] st hv
          (by rw [List.nil_append]; exact nodup_neighborsOf c) (fun n hn => hn)
      rw [List.nil_append] at hv1
      have hl1 : LoopInv l0 draws (idx + 1) st1 :=
        { base := hv1.base
          bonds := fun bond hb => by
            obtain ⟨a, b, hab, h⟩ := hv1.bonds bond hb
            refine ⟨a, b, hab, (mem_take_succ hv1.current a).2 ?_⟩
            exact h.imp_right (fun h => h.1)
          closed := fun hall a ha n hn hs => by
            rcases (mem_take_succ hv1.current a).1 ha with h | h
            · exact hv1.closed hall a h n hn hs
            · rw [h] at hn
              exact hv1.closed_done hall n hn hs }
      simp only [hnb, e1, e2, e3]
      rcases ih hl1 with ⟨st2, f1, f2, f3, hfin⟩ | ⟨f1, f2, f3, hlt⟩
      · left
        exact ⟨st2, f1, f2, f3, hfin⟩
      · right
        exact ⟨f1, f2, f3, by omega⟩

/-! ## The whole search -/

theorem LoopInv_start {l : InfiniteLattice} (hl : Reachable l) (draws : Nat → Bool) :
    LoopInv l draws 0 { latt := l, cluster := [0], bonds_visited := [], drawn := 0 } := by
  have hwf := hl.wellFormed
  have hpos : 0 < l.spins.length := by
    rw [hwf.1]
    exact NumPointsUpToGen_pos _
  refine { base := ?_, bonds := fun bond hb => absurd hb (List.not_mem_nil bond),
           closed := fun _ a ha => absurd ha (List.not_mem_nil a) }
  refine { reach := hl, gen_ge := le_rfl, gen_le := Nat.le_add_right _ _, spin_eq := fun i hi => ?_,
           mem_lt := fun m hm => ?_, mem_gen := fun m hm => ?_, mem_spin := fun m hm => ?_,
           mem_conn := fun m hm => ?_, nodup := List.nodup_singleton 0, head := rfl,
           rejected := fun _ => rfl }
  · simp only [virtualSpin, List.getElem?_eq_getElem hi]
  · rw [List.mem_singleton.1 hm]; exact hpos
  · rw [List.mem_singleton.1 hm]; simp [getGeneration]
  · rw [List.mem_singleton.1 hm]
  · rw [List.mem_singleton.1 hm]; exact Connected.origin

/-- `ClusterSearch` on a reachable lattice: it returns the cluster and the
lattice of a state that satisfies the invariant with every member done, or it
runs out of fuel, which takes less fuel than there are sites of generation at
most `G + 1`; the search without the bond set and the strict search do the
same. -/
theorem ClusterSearch_inv {l : InfiniteLattice} (hl : Reachable l) (fuel : Nat)
    (draws : Nat → Bool) :
    (∃ st1, ClusterSearch fuel draws l = .ok (st1.cluster, st1.latt) ∧
      ClusterSearchNoBonds fuel draws l = .ok (st1.cluster, st1.latt) ∧
      ClusterSearchStrict fuel draws l = .ok (some (st1.cluster, st1.latt)) ∧
      LoopInv l draws st1.cluster.length st1) ∨
    (ClusterSearch fuel draws l = .error Fault.outOfFuel ∧
      ClusterSearchNoBonds fuel draws l = .error Fault.outOfFuel ∧
      ClusterSearchStrict fuel draws l = .error Fault.outOfFuel ∧
      fuel < NumPointsUpToGen (l.gen + 1)) := by
  rcases searchLoop_inv hl fuel (LoopInv_start hl draws) with
    ⟨st1, e1, e2, e3, hfin⟩ | ⟨e1, e2, e3, hlt⟩
  · left
    refine ⟨st1, ?_, ?_, ?_, hfin⟩
    · simp only [ClusterSearch, e1]
    · simp only [ClusterSearchNoBonds, e2]
    · simp only [ClusterSearchStrict, e3]
  · right
    refine ⟨?_, ?_, ?_, by omega⟩
    · simp only [ClusterSearch, e1]
    · simp only [ClusterSearchNoBonds, e2]
    · simp only [ClusterSearchStrict, e3]

/-- What `ClusterSearch` returns on a reachable lattice satisfies the
invariant of the search. -/
theorem ClusterSearch_ok_inv {l l1 : InfiniteLattice} (hl : Reachable l) {fuel : Nat}
    {draws : Nat → Bool} {cluster : List Nat}
    (h : ClusterSearch fuel draws l = .ok (cluster, l1)) :
    ∃ st1, st1.cluster = cluster ∧ st1.latt = l1 ∧ LoopInv l draws st1.cluster.length st1 := by
  rcases ClusterSearch_inv hl fuel draws with ⟨st1, e1, -, -, hfin⟩ | ⟨e1, -, -, -⟩
  · rw [e1] at h
    simp only [Except.ok.injEq, Prod.mk.injEq] at h
    exact ⟨st1, h.1, h.2, hfin⟩
  · rw [e1] at h
    cases h

theorem ClusterSearch_returns {l : InfiniteLattice} (hl : Reachable l) {fuel : Nat}
    (hf : NumPointsUpToGen (l.gen + 1) ≤ fuel) (draws : Nat → Bool) :
    ∃ cluster l1, ClusterSearch fuel draws l = .ok (cluster, l1) := by
  rcases ClusterSearch_inv hl fuel draws with ⟨st1, e1, -, -, -⟩ | ⟨-, -, -, hlt⟩
  · exact ⟨_, _, e1⟩
  · omega

/-- The spins after `flipSpins` over a cluster without repetitions. -/
theorem getElem?_flipAll_nodup (spins : List Bool) (cluster : List Nat) (hnd : cluster.Nodup)
    (j : Nat) :
    (flipAll spins cluster)[j]? =
      if j ∈ cluster then spins[j]?.map (fun b => !b) else spins[j]? := by
  rw [getElem?_flipAll]
  by_cases hj : j ∈ cluster
  · rw [if_pos hj, List.count_eq_one_of_mem hnd hj]
    cases spins[j]? with
    | none => rfl
    | some b => cases b <;> rfl
  · rw [if_neg hj, List.count_eq_zero_of_not_mem hj]
    cases spins[j]? with
    | none => rfl
    | some b => cases b <;> rfl

theorem flippedGen1_reachable : Reachable flippedGen1 :=
  Reachable.flipSpins
    ⟨1, [true, false, false, false, false],
      [(1, 2, 3, 4), (5, 6, 0, 12), (6, 7, 8, 0), (0, 8, 9, 10), (12, 0, 10, 11)]⟩
    [0] flippedGen1
    (Reachable.construct 1 _ (by decide)) (by decide)

/-! ## Machine arithmetic -/

theorem sqrtFloorBits_spec (k n r : Nat) (h1 : r * r ≤ n)
    (h2 : n < (r + 2 ^ k) * (r + 2 ^ k)) :
    sqrtFloorBits k n r * sqrtFloorBits k n r ≤ n ∧
      n < (sqrtFloorBits k n r + 1) * (sqrtFloorBits k n r + 1) := by
  induction k generalizing r with
  | zero => exact ⟨h1, by simpa using h2⟩
  | succ k ih =>
    rw [sqrtFloorBits]
    split_ifs with hc
    · apply ih _ hc
      have e : r + 2 ^ k + 2 ^ k = r + 2 ^ (k + 1) := by rw [pow_succ]; omega
      rw [e]
      exact h2
    · exact ih _ h1 (by omega)

/-- `sqrtFloor` is the integer floor square root below `2 ^ 256`. -/
theorem sqrtFloor_spec (n : Nat) (h : n < 2 ^ 256) :
    sqrtFloor n * sqrtFloor n ≤ n ∧ n < (sqrtFloor n + 1) * (sqrtFloor n + 1) := by
  apply sqrtFloorBits_spec
  · exact Nat.zero_le _
  · have e : (0 + 2 ^ 128) * (0 + 2 ^ 128) = 2 ^ 256 := by norm_num
    rw [e]
    exact h

theorem sqrtFloor_eq_sqrt (n : Nat) (h : n < 2 ^ 256) : sqrtFloor n = Nat.sqrt n :=
  Nat.eq_sqrt.2 (sqrtFloor_spec n h)

/-! ## Runs of `solve` -/

theorem visitNeighbor_materialises {draws : Nat → Bool} {current neighbor : Nat}
    {st st1 : SearchState} (h : visitNeighbor draws current st neighbor = .ok st1) :
    neighbor < st1.latt.spins.length := by
  unfold visitNeighbor at h
  cases h1 : st.latt.getSpin current with
  | error e => simp [h1] at h
  | ok r1 =>
    obtain ⟨sc, l1⟩ := r1
    simp only [h1] at h
    cases h2 : l1.getSpin neighbor with
    | error e => simp [h2] at h
    | ok r2 =>
      obtain ⟨sn, l2⟩ := r2
      simp only [h2] at h
      have len2 := (getSpin_length h2).2
      split_ifs at h <;> cases h <;> exact len2

theorem visitNeighbors_materialises {draws : Nat → Bool} {current : Nat} {nbs : List Nat}
    {st st1 : SearchState} (h : visitNeighbors draws current st nbs = .ok st1) :
    ∀ n ∈ nbs, n < st1.latt.spins.length := by
  induction nbs generalizing st with
  | nil => exact fun n hn => absurd hn (List.not_mem_nil n)
  | cons nb rest ih =>
    rw [visitNeighbors] at h
    cases h1 : visitNeighbor draws current st nb with
    | error e => simp [h1] at h
    | ok st2 =>
      simp only [h1] at h
      intro n hn
      rcases List.mem_cons.1 hn with rfl | hn
      · have := visitNeighbor_materialises h1
        have := (visitNeighbors_ok h).2.1
        omega
      · exact ih h n hn

theorem neighborsOf_zero : neighborsOf 0 = (1, 2, 3, 4) := by decide

/-- A search that returns on a reachable lattice leaves at least the five
sites of generation 1 materialised: it has read the spins of the origin's
neighbours. -/
theorem ClusterSearch_sites {l l1 : InfiniteLattice} (hl : Reachable l) {fuel : Nat}
    {draws : Nat → Bool} {cluster : List Nat}
    (h : ClusterSearch fuel draws l = .ok (cluster, l1)) : 5 ≤ l1.spins.length := by
  have hr1 := ClusterSearch_reachable h hl
  unfold ClusterSearch at h
  cases hs : searchLoop draws fuel 0
      { latt := l, cluster := [0], bonds_visited := [], drawn := 0 } with
  | error e => simp [hs] at h
  | ok st =>
    simp only [hs, Except.ok.injEq, Prod.mk.injEq] at h
    obtain ⟨-, rfl⟩ := h
    have hnb : InfiniteLattice.getNeighbors l 0 = .ok (neighborsOf 0) := by
      obtain ⟨h1, -, h3⟩ := hl.wellFormed
      rw [InfiniteLattice.getNeighbors, h3 0 (NumPointsUpToGen_pos _)]
    have h2 : 2 ≤ st.latt.spins.length := by
      cases fuel with
      | zero =>
        rw [searchLoop] at hs
        simp at hs
      | succ f =>
        rw [searchLoop] at hs
        simp only [List.getElem?_cons_zero, hnb] at hs
        cases hv : visitNeighbors draws 0
            { latt := l, cluster := [0], bonds_visited := [], drawn := 0 }
            (neighborsOf 0).toList with
        | error e => simp [hv] at hs
        | ok st1 =>
          simp only [hv] at hs
          have hm := visitNeighbors_materialises hv 1
            (by rw [neighborsOf_zero]; simp [neighbor_t.toList])
          have := (searchLoop_ok hs).2.1
          omega
    obtain ⟨hlen, -, -⟩ := hr1.wellFormed
    rw [hlen] at h2 ⊢
    have hg : 1 ≤ st.latt.gen := by
      by_contra hc
      have h0 : st.latt.gen = 0 := by omega
      rw [h0] at h2
      simp [NumPointsUpToGen] at h2
    exact NumPointsUpToGen_mono hg

/-- With every draw rejected the search on a reachable lattice returns the
cluster `[0]` after one pass of the loop. -/
theorem ClusterSearch_rejected {l : InfiniteLattice} (hl : Reachable l) {fuel : Nat}
    (hf : 1 ≤ fuel) : ∃ l1, ClusterSearch fuel (fun _ => false) l = .ok ([0], l1) := by
  obtain ⟨f, rfl⟩ : ∃ f, fuel = f + 1 := ⟨fuel - 1, by omega⟩
  have hstart := LoopInv_start hl (fun _ => false)
  have hnb := getNeighbors_of_inv hstart.base (c := 0) (List.mem_singleton_self 0)
  have hv : VisitInv l (fun _ => false) 0 0 []
      { latt := l, cluster := [0], bonds_visited := [], drawn := 0 } :=
    { base := hstart.base, current := rfl
      bonds := fun bond hb => absurd hb (List.not_mem_nil bond)
      closed := hstart.closed
      closed_done := fun _ n hn => absurd hn (List.not_mem_nil n) }
  obtain ⟨st1, e1, -, -, hv1⟩ :=
    @visitNeighbors_inv l hl (fun _ => false) 0 0 (neighborsOf 0).toList [] _ hv
      (by rw [List.nil_append]; exact nodup_neighborsOf 0) (fun n hn => hn)
  have hcl : st1.cluster = [0] := hv1.base.rejected (fun _ => rfl)
  have hnb' : InfiniteLattice.getNeighbors l 0 = .ok (neighborsOf 0) := hnb
  have hloop : searchLoop (fun _ => false) (f + 1) 0
      { latt := l, cluster := [0], bonds_visited := [], drawn := 0 } = .ok st1 := by
    rw [searchLoop]
    simp only [List.getElem?_cons_zero, hnb', e1]
    rw [searchLoop]
    simp only [hcl, List.getElem?_cons_succ, List.getElem?_nil]
  refine ⟨st1.latt, ?_⟩
  simp only [ClusterSearch, hloop, hcl]

theorem countCluster_origin (c : Nat) : countCluster [c] [0] = .ok [c + 1] := rfl

/-- With every draw rejected the iteration loop of `solve` returns on a
reachable lattice, and it has counted the origin once per iteration. -/
theorem solveLoop_rejected {fuel : Nat} (hf : 1 ≤ fuel) {rng : Nat → Nat → Bool}
    (hrej : ∀ i k, rng i k = false) (n : Nat) :
    ∀ (i c : Nat) (l : InfiniteLattice), Reachable l →
      ∃ l1, solveLoop fuel rng n i l [c] = .ok ([c + n], l1) := by
  induction n with
  | zero => exact fun i c l _ => ⟨l, rfl⟩
  | succ n ih =>
    intro i c l hl
    have hrng : rng i = fun _ => false := funext (hrej i)
    obtain ⟨l1, h1⟩ := ClusterSearch_rejected hl hf
    have hr1 := ClusterSearch_reachable h1 hl
    have hpos := (ClusterSearch_ok h1).2.2
    have hflip := flipSpins_eq l1 [0] (fun s hs => by rw [List.mem_singleton.1 hs]; exact hpos)
    have hr2 := Reachable.flipSpins _ _ _ hr1 hflip
    obtain ⟨l3, h3⟩ := ih (i + 1) (c + 1) _ hr2
    refine ⟨l3, ?_⟩
    rw [solveLoop, hrng]
    simp only [h1, hflip, countCluster_origin, h3]
    congr 3
    omega

/-- The iteration loop of `solve` does not shrink the lattice, and after at
least one iteration on a reachable lattice at least five sites exist. -/
theorem solveLoop_sites {fuel : Nat} {rng : Nat → Nat → Bool} {n i : Nat}
    {l l1 : InfiniteLattice} {G_count G1 : List Nat}
    (h : solveLoop fuel rng n i l G_count = .ok (G1, l1)) (hl : Reachable l) :
    l.spins.length ≤ l1.spins.length ∧ (1 ≤ n → 5 ≤ l1.spins.length) := by
  induction n generalizing i l G_count with
  | zero =>
    simp only [solveLoop, Except.ok.injEq, Prod.mk.injEq] at h
    obtain ⟨-, rfl⟩ := h
    exact ⟨le_rfl, fun h => absurd h (by omega)⟩
  | succ n ih =>
    rw [solveLoop] at h
    cases hcs : ClusterSearch fuel (rng i) l with
    | error e => simp [hcs] at h
    | ok r =>
      obtain ⟨cluster, l2⟩ := r
      simp only [hcs] at h
      cases hf : l2.flipSpins cluster with
      | error e => simp [hf] at h
      | ok l3 =>
        simp only [hf] at h
        cases hcc : countCluster G_count cluster with
        | error e => simp [hcc] at h
        | ok G2 =>
          simp only [hcc] at h
          have h5 := ClusterSearch_sites hl hcs
          have hmono := (ClusterSearch_ok hcs).2.1
          obtain ⟨-, -, hflen⟩ := flipSpins_frame hf
          have hr3 := Reachable.flipSpins l2 cluster l3 (ClusterSearch_reachable hcs hl) hf
          obtain ⟨hm, -⟩ := ih h hr3
          exact ⟨by omega, fun _ => by omega⟩


/-! ## The claims -/

/-- C1: for every linear index `i`, `indx2coord i` returns a coordinate and
`coord2indx` maps that coordinate back to `i`. -/
theorem coord2indx_indx2coord (i : Nat) :
    ∃ c, indx2coord i = .ok c ∧ coord2indx c = i :=
  indx2coord_total i

/-- The round trip from coordinates, with the exact square root and unbounded
integers: `indx2coord (coord2indx (x, y))` returns `(x, y)` for every pair of
integers; hence `coord2indx` is injective and only `(0, 0)` has index 0. -/
theorem indx2coord_coord2indx :
    (∀ x y : Int, indx2coord (coord2indx (x, y)) = .ok (x, y)) ∧
      Function.Injective coord2indx ∧ (∀ c : coord_t, coord2indx c = 0 ↔ c = (0, 0)) := by
  have inj : Function.Injective coord2indx := by
    intro a b hab
    have ha := indx2coord_coord2indx_aux a.1 a.2
    have hb := indx2coord_coord2indx_aux b.1 b.2
    simp only [Prod.mk.eta] at ha hb
    rw [hab, hb] at ha
    cases ha
    rfl
  refine ⟨indx2coord_coord2indx_aux, inj, fun c => ⟨fun h => ?_, fun h => by rw [h]; rfl⟩⟩
  exact inj (h.trans (by rfl : (0 : Nat) = coord2indx (0, 0)))

set_option maxRecDepth 100000 in
/-- C2, the code at a failing input, the pair `(-1, 47453132)`.  Its index is
`4503599757937644`, the last site of ring `47453133`.  In `getGeneration` the
odd number `2*site - 1 = 9007199515875287` lies above `2^53` and becomes the
`double` `9007199515875288`; its square root, `94906266.99999999...`, rounds
to the `double` `94906267`, and the generation comes out as `47453134`, one
too large.  The subtraction `i - NumPointsUpToGen(gen-1)` then wraps, the
sector is `388736054265`, and `indx2coord` throws instead of returning the
pair.  At the neighbouring pair `(-1, 47453131)` it still returns the pair. -/
theorem indx2coordDouble_throws :
    coord2indx (-1, 47453132) = 4503599757937644 ∧
      getGeneration 4503599757937644 = 47453133 ∧
      (2 * 4503599757937644 + (2 ^ 64 - 1)) % 2 ^ 64 = 9007199515875287 ∧
      roundDouble 9007199515875287 = 9007199515875288 ∧
      sqrtDouble 9007199515875288 = 94906267 * 2 ^ 64 ∧
      getGenerationDouble 4503599757937644 = 47453134 ∧
      (4503599757937644 + (2 ^ 64 - NumPointsUpToGen 47453133 % 2 ^ 64)) % 2 ^ 64 / 47453134 =
        388736054265 ∧
      indx2coordDouble (coord2indx (-1, 47453132)) = .error Fault.thrown ∧
      indx2coordDouble (coord2indx (-1, 47453131)) = .ok (-1, 47453131) := by
  have h1 : coord2indx (-1, 47453132) = 4503599757937644 := by decide
  have h2 : getGeneration 4503599757937644 = 47453133 := by
    rw [← h1, getGeneration_coord2indx]
    rfl
  exact ⟨h1, h2, by decide, by decide, by decide, by decide, by decide, by decide, by decide⟩

/-- C3: in every reachable lattice state the spin vector and the neighbour
vector both hold `2g^2+2g+1` entries, `g` the generation; one growth step
raises the generation by one, to `g` say, and appends exactly `4g` spins and
`4g` neighbour tuples; and the constructor called with `G` returns a lattice
of generation `G`. -/
theorem lattice_size_invariant :
    (∀ l : InfiniteLattice, Reachable l →
        l.spins.length = 2 * l.getGeneration ^ 2 + 2 * l.getGeneration + 1 ∧
        l.neighbors.length = 2 * l.getGeneration ^ 2 + 2 * l.getGeneration + 1 ∧
        l.spins.length = NumPointsUpToGen l.getGeneration) ∧
    (∀ l : InfiniteLattice, ∃ l1 newSpins newNeighbors,
        l.IncreaseLatticeSize = .ok l1 ∧ l1.getGeneration = l.getGeneration + 1 ∧
        l1.spins = l.spins ++ newSpins ∧ newSpins.length = 4 * l1.getGeneration ∧
        l1.neighbors = l.neighbors ++ newNeighbors ∧
        newNeighbors.length = 4 * l1.getGeneration) ∧
    (∀ G : Nat, ∃ l, InfiniteLattice.construct G = .ok l ∧ l.getGeneration = G) := by
  refine ⟨fun l hl => ?_, fun l => ?_, fun G => ?_⟩
  · obtain ⟨h1, h2, -⟩ := hl.wellFormed
    have e : NumPointsUpToGen l.gen = 2 * l.gen ^ 2 + 2 * l.gen + 1 := by
      unfold NumPointsUpToGen
      ring
    exact ⟨h1.trans e, h2.trans e, h1⟩
  · refine ⟨grown l, _, _, IncreaseLatticeSize_eq l, rfl, rfl, ?_, rfl, ?_⟩
    · simp only [List.length_replicate, InfiniteLattice.getGeneration, grown]
      omega
    · simp only [List.length_map, List.length_range', InfiniteLattice.getGeneration, grown]
      omega
  · refine ⟨_, construct_eq G, ?_⟩
    simp only [InfiniteLattice.getGeneration, gen_iterate, InfiniteLattice.initial]
    omega

/-- C4: right after the constructor called with `G`, the stored spin of every
index `i < 2G^2+2G+1` is `SPIN0` exactly when `getGeneration i` is even; so
the sites of one ring share one spin, rings `g` and `g + 1` have opposite
spins, and the origin holds `SPIN0`. -/
theorem neel_after_construct (G : Nat) :
    ∃ l, InfiniteLattice.construct G = .ok l ∧
      (∀ i, i < 2 * G ^ 2 + 2 * G + 1 →
        ∃ b, l.getSpinConst i = .ok b ∧ (b = SPIN0 ↔ getGeneration i % 2 = 0)) ∧
      (∀ i j, i < 2 * G ^ 2 + 2 * G + 1 → j < 2 * G ^ 2 + 2 * G + 1 →
        getGeneration i = getGeneration j → l.getSpinConst i = l.getSpinConst j) ∧
      (∀ i j, i < 2 * G ^ 2 + 2 * G + 1 → j < 2 * G ^ 2 + 2 * G + 1 →
        getGeneration j = getGeneration i + 1 → l.getSpinConst i ≠ l.getSpinConst j) ∧
      l.getSpinConst 0 = .ok SPIN0 := by
  have e : NumPointsUpToGen G = 2 * G ^ 2 + 2 * G + 1 := by
    unfold NumPointsUpToGen
    ring
  have key : ∀ i, i < 2 * G ^ 2 + 2 * G + 1 →
      (grown^[G] InfiniteLattice.initial).getSpinConst i =
        .ok (decide (getGeneration i % 2 = 0)) := by
    intro i hi
    rw [InfiniteLattice.getSpinConst, spins_iterate G i (by omega)]
  refine ⟨_, construct_eq G, fun i hi => ?_, fun i j hi hj hij => ?_,
    fun i j hi hj hij => ?_, ?_⟩
  · exact ⟨_, key i hi, by simp [SPIN0]⟩
  · rw [key i hi, key j hj, hij]
  · rw [key i hi, key j hj, hij]
    intro h
    simp only [Except.ok.injEq, decide_eq_decide] at h
    omega
  · rw [key 0 (by omega)]
    rfl

/-- C5: in every reachable lattice state, the stored neighbour tuple of every
materialised index `i` is `(coord2indx (x, y+1), coord2indx (x+1, y),
coord2indx (x, y-1), coord2indx (x-1, y))` with `(x, y) = indx2coord i`: the
sites above, right of, below and left of it, in that order. -/
theorem getNeighbors_spec (l : InfiniteLattice) (hl : Reachable l) (i : Nat)
    (hi : i < l.spins.length) :
    ∃ x y, indx2coord i = .ok (x, y) ∧
      l.getNeighbors i = .ok (coord2indx (x, y + 1), coord2indx (x + 1, y),
        coord2indx (x, y - 1), coord2indx (x - 1, y)) := by
  obtain ⟨h1, -, h3⟩ := hl.wellFormed
  obtain ⟨c, hc, -⟩ := indx2coord_total i
  refine ⟨c.1, c.2, hc, ?_⟩
  rw [InfiniteLattice.getNeighbors, h3 i (by omega)]
  simp only [neighborsOf, get_neighbors, hc]

/-- Witness for C5: site 3 of the lattice of generation 1. -/
theorem getNeighbors_spec_witness :
    Reachable ⟨1, [true, false, false, false, false],
        [(1, 2, 3, 4), (5, 6, 0, 12), (6, 7, 8, 0), (0, 8, 9, 10), (12, 0, 10, 11)]⟩ ∧
      ∃ x y, indx2coord 3 = .ok (x, y) ∧
        InfiniteLattice.getNeighbors
            ⟨1, [true, false, false, false, false],
              [(1, 2, 3, 4), (5, 6, 0, 12), (6, 7, 8, 0), (0, 8, 9, 10), (12, 0, 10, 11)]⟩ 3 =
          .ok (coord2indx (x, y + 1), coord2indx (x + 1, y),
            coord2indx (x, y - 1), coord2indx (x - 1, y)) :=
  ⟨Reachable.construct 1 _ (by decide),
    getNeighbors_spec _ (Reachable.construct 1 _ (by decide)) 3 (by decide)⟩

/-- C6, the claim as stated fails: on the lattice of generation 0 the call
`getSpin(5)` grows the lattice once, to 5 sites, and then reads `_spins[5]`
out of range. -/
theorem getSpin_far_counterexample :
    InfiniteLattice.initial.getSpin 5 = .error Fault.outOfRange ∧
      InfiniteLattice.initial.IncreaseLatticeSize =
        .ok ⟨1, [true, false, false, false, false],
          [(1, 2, 3, 4), (5, 6, 0, 12), (6, 7, 8, 0), (0, 8, 9, 10), (12, 0, 10, 11)]⟩ ∧
      ¬ ∃ b l1, InfiniteLattice.initial.getSpin 5 = .ok (b, l1) ∧ 5 < l1.spins.length ∧
        l1.spins[5]? = some b := by
  have h : InfiniteLattice.initial.getSpin 5 = .error Fault.outOfRange := by decide
  refine ⟨h, by decide, ?_⟩
  rintro ⟨b, l1, h1, -⟩
  rw [h] at h1
  cases h1

/-- C6 as amended: for every lattice state and every index `i` below the
number of materialised sites plus `4 (g + 1)`, `g` the generation, the
non-const `getSpin i` returns; it makes no growth step when `i` is
materialised and exactly one otherwise; afterwards `i` is materialised and the
value returned is the stored spin of `i`.  In a reachable state the bound on
`i` is `NumPointsUpToGen (g + 1)`: the site lies at most one ring outside. -/
theorem getSpin_near (l : InfiniteLattice) (i : Nat)
    (hi : i < l.spins.length + 4 * (l.getGeneration + 1)) :
    (∃ b l1, l.getSpin i = .ok (b, l1) ∧ i < l1.spins.length ∧ l1.getSpinConst i = .ok b ∧
      (i < l.spins.length → l1 = l) ∧
      (l.spins.length ≤ i → l.IncreaseLatticeSize = .ok l1)) ∧
    (Reachable l →
      l.spins.length + 4 * (l.getGeneration + 1) = NumPointsUpToGen (l.getGeneration + 1)) := by
  refine ⟨?_, fun hr => by
    rw [NumPointsUpToGen_succ, hr.wellFormed.1, InfiniteLattice.getGeneration]⟩
  unfold InfiniteLattice.getSpin
  by_cases hlt : i < l.spins.length
  · have hge : ¬ i ≥ l.spins.length := by omega
    refine ⟨l.spins[i], l, ?_, hlt, ?_, fun _ => rfl, fun h => absurd h (by omega)⟩
    · simp only [hge, if_false, List.getElem?_eq_getElem hlt]
    · simp only [InfiniteLattice.getSpinConst, List.getElem?_eq_getElem hlt]
  · have hge : i ≥ l.spins.length := by omega
    have hlen : i < (grown l).spins.length := by
      simp only [grown, List.length_append, List.length_replicate]
      simp only [InfiniteLattice.getGeneration] at hi
      omega
    refine ⟨(grown l).spins[i], grown l, ?_, hlen, ?_, fun h => absurd h hlt,
      fun _ => IncreaseLatticeSize_eq l⟩
    · simp only [hge, if_true, IncreaseLatticeSize_eq, List.getElem?_eq_getElem hlen]
    · simp only [InfiniteLattice.getSpinConst, List.getElem?_eq_getElem hlen]

/-- Witness for the amended C6: index 3 on the lattice of generation 0. -/
theorem getSpin_near_witness :
    3 < InfiniteLattice.initial.spins.length + 4 * (InfiniteLattice.initial.getGeneration + 1) ∧
      ∃ b l1, InfiniteLattice.initial.getSpin 3 = .ok (b, l1) ∧ 3 < l1.spins.length ∧
        l1.getSpinConst 3 = .ok b ∧
        (3 < InfiniteLattice.initial.spins.length → l1 = InfiniteLattice.initial) ∧
        (InfiniteLattice.initial.spins.length ≤ 3 →
          InfiniteLattice.initial.IncreaseLatticeSize = .ok l1) :=
  ⟨by decide, (getSpin_near InfiniteLattice.initial 3 (by decide)).1⟩

/-- C7: for every lattice state and every cluster of materialised indices,
`flipSpins cluster` returns, and a second `flipSpins cluster` on its result
returns the original lattice: every spin is restored, and generation and
neighbour tuples are the same after the first call as well. -/
theorem flipSpins_twice (l : InfiniteLattice) (cluster : List Nat)
    (h : ∀ s ∈ cluster, s < l.spins.length) :
    ∃ l1, l.flipSpins cluster = .ok l1 ∧ l1.flipSpins cluster = .ok l ∧
      l1.getGeneration = l.getGeneration ∧ l1.neighbors = l.neighbors := by
  refine ⟨{ l with spins := flipAll l.spins cluster }, flipSpins_eq l cluster h, ?_, rfl, rfl⟩
  rw [flipSpins_eq]
  · simp only [flipAll_flipAll]
  · intro s hs
    simp only [length_flipAll]
    exact h s hs

/-- Witness for C7: the cluster `[0, 2, 2, 4]` on the lattice of generation 1. -/
theorem flipSpins_twice_witness :
    (∀ s ∈ [0, 2, 2, 4], s < [true, false, false, false, false].length) ∧
      ∃ l1, InfiniteLattice.flipSpins
            ⟨1, [true, false, false, false, false],
              [(1, 2, 3, 4), (5, 6, 0, 12), (6, 7, 8, 0), (0, 8, 9, 10), (12, 0, 10, 11)]⟩
            [0, 2, 2, 4] = .ok l1 ∧
        l1.flipSpins [0, 2, 2, 4] =
          .ok ⟨1, [true, false, false, false, false],
            [(1, 2, 3, 4), (5, 6, 0, 12), (6, 7, 8, 0), (0, 8, 9, 10), (12, 0, 10, 11)]⟩ ∧
        l1.getGeneration = 1 ∧
        l1.neighbors =
          [(1, 2, 3, 4), (5, 6, 0, 12), (6, 7, 8, 0), (0, 8, 9, 10), (12, 0, 10, 11)] :=
  ⟨by decide, flipSpins_twice _ [0, 2, 2, 4] (by decide)⟩

/-- C8, the code at a failing input: two iterations from the lattice of
generation 0 with every draw accepted.  The first cluster is `[0]`; after its
flip the second cluster is `[0, 1, 2, 3, 4]`; counting site 1 into the count
vector `[1]` of size 1 is out of range, and so `solve 2` does not return. -/
theorem solve_count_out_of_range :
    ClusterSearch 10 (fun _ => true) InfiniteLattice.initial =
        .ok ([0], ⟨1, [true, false, false, false, false],
          [(1, 2, 3, 4), (5, 6, 0, 12), (6, 7, 8, 0), (0, 8, 9, 10), (12, 0, 10, 11)]⟩) ∧
      (ClusterSearch 10 (fun _ => true)
          ⟨1, [false, false, false, false, false],
            [(1, 2, 3, 4), (5, 6, 0, 12), (6, 7, 8, 0), (0, 8, 9, 10), (12, 0, 10, 11)]⟩).map
        Prod.fst = .ok [0, 1, 2, 3, 4] ∧
      countCluster [1] [0] = .ok [2] ∧
      countSite [2] 1 = .error Fault.outOfRange ∧
      countCluster [1] [0, 1, 2, 3, 4] = .error Fault.outOfRange ∧
      solve 10 (fun _ _ => true) InfiniteLattice.initial 2 = .error Fault.outOfRange := by
  refine ⟨by decide, by decide, by decide, by decide, by decide, by decide⟩

/-- C9, the claim as stated fails: one iteration from the lattice of
generation 0 returns a sequence of length 1 while the lattice holds 5 sites. -/
theorem solve_length_counterexample :
    ∃ G l1, solve 10 (fun _ _ => false) InfiniteLattice.initial 1 = .ok (G, l1) ∧
      G.length = 1 ∧ l1.getGeneration = 1 ∧ l1.spins.length = 5 ∧
      G.length ≠ 2 * l1.getGeneration ^ 2 + 2 * l1.getGeneration + 1 :=
  ⟨_, _, solve_initial_one, rfl, rfl, rfl, by decide⟩

/-- C9 as amended: for every `N >= 1` and every reachable starting lattice,
when every draw is rejected `solve N` returns, and the sequence it returns
has exactly one entry; and whenever `solve N` returns, for any draws, the
sequence has exactly one entry while the lattice holds `2g^2+2g+1 >= 5`
materialised sites, `g` the final generation: the sequence is shorter than
the lattice. -/
theorem solve_length_one (l : InfiniteLattice) (hl : Reachable l) (N : Nat) (hN : 1 ≤ N) :
    (∀ (fuel : Nat) (rng : Nat → Nat → Bool), 1 ≤ fuel → (∀ i k, rng i k = false) →
        ∃ l1, solve fuel rng l N = .ok ([1], l1)) ∧
      ∀ (fuel : Nat) (rng : Nat → Nat → Bool) (G : List ℚ) (l1 : InfiniteLattice),
        solve fuel rng l N = .ok (G, l1) →
          G.length = 1 ∧ Reachable l1 ∧
          l1.spins.length = 2 * l1.getGeneration ^ 2 + 2 * l1.getGeneration + 1 ∧
          5 ≤ l1.spins.length ∧ G.length < l1.spins.length := by
  refine ⟨fun fuel rng hf hrej => ?_, fun fuel rng G l1 h => ?_⟩
  · obtain ⟨l1, h1⟩ := solveLoop_rejected hf hrej N 0 0 l hl
    refine ⟨l1, ?_⟩
    have hN0 : (N : ℚ) ≠ 0 := by
      have : N ≠ 0 := by omega
      exact_mod_cast this
    simp only [solve, h1, List.map_cons, List.map_nil, Nat.zero_add, div_self hN0]
  · obtain ⟨G_count, hs, rfl⟩ := solve_ok h
    obtain ⟨-, hlen, -⟩ := solveLoop_ok hs 0 (by simp)
    have h5 := (solveLoop_sites hs hl).2 hN
    have hr1 := solveLoop_reachable hs hl
    have hwf := hr1.wellFormed.1
    simp only [List.length_map, hlen, List.length_singleton]
    refine ⟨trivial, hr1, ?_, h5, by omega⟩
    rw [hwf]
    unfold NumPointsUpToGen InfiniteLattice.getGeneration
    ring

/-- Witness for the amended C9: three iterations on the lattice of generation
1 with all spins equal, every draw rejected; four draws are made and rejected
in each iteration. -/
theorem solve_length_one_witness :
    Reachable flippedGen1 ∧ 1 ≤ 3 ∧
      ∃ l1, solve 1 (fun _ _ => false) flippedGen1 3 = .ok ([1], l1) :=
  ⟨flippedGen1_reachable, by decide,
    (solve_length_one flippedGen1 flippedGen1_reachable 3 (by decide)).1 1
      (fun _ _ => false) (by decide) (fun _ _ => rfl)⟩

/-- C13, the claim as stated fails: the constructor accepts `beta = -1`, and
`solve 0` returns a sequence without running an iteration. -/
theorem no_validation_counterexample :
    WolffSolver.construct InfiniteLattice.initial (-1) =
        .ok { latt := InfiniteLattice.initial, beta := -1 } ∧
      ∃ G, solve 10 (fun _ _ => false) InfiniteLattice.initial 0 =
        .ok (G, InfiniteLattice.initial) :=
  ⟨rfl, _, rfl⟩

/-- C13 as amended: no configuration is rejected.  The constructor returns a
solver for every `beta`, and `solve 0` returns normally for every lattice: it
runs no iteration, leaves the lattice as it is and returns one entry, the
quotient of the initial count 0 by 0. -/
theorem no_validation :
    (∀ (latt : InfiniteLattice) (beta : ℚ),
        WolffSolver.construct latt beta = .ok { latt := latt, beta := beta }) ∧
    (∀ (fuel : Nat) (rng : Nat → Nat → Bool) (l : InfiniteLattice),
        solveLoop fuel rng 0 0 l [0] = .ok ([0], l) ∧
        ∃ G, solve fuel rng l 0 = .ok (G, l) ∧ G.length = 1) :=
  ⟨fun _ _ => rfl, fun _ _ _ => ⟨rfl, _, rfl, rfl⟩⟩

/-- C14: a call of the non-const `getSpin` that returns leaves the generation
at least as large as before and only appends to the spin and neighbour
vectors, so every site materialised before keeps its spin and its neighbour
tuple; the growth step itself always returns and only appends. -/
theorem getSpin_append_only (l : InfiniteLattice) (i : Nat) (b : Bool) (l1 : InfiniteLattice)
    (h : l.getSpin i = .ok (b, l1)) :
    l.getGeneration ≤ l1.getGeneration ∧
      (∃ newSpins, l1.spins = l.spins ++ newSpins) ∧
      (∃ newNeighbors, l1.neighbors = l.neighbors ++ newNeighbors) ∧
      (∀ j, j < l.spins.length → l1.getSpinConst j = l.getSpinConst j) ∧
      (∀ j, j < l.neighbors.length → l1.getNeighbors j = l.getNeighbors j) ∧
      (∃ l2 newSpins newNeighbors, l.IncreaseLatticeSize = .ok l2 ∧
        l2.getGeneration = l.getGeneration + 1 ∧ l2.spins = l.spins ++ newSpins ∧
        l2.neighbors = l.neighbors ++ newNeighbors) := by
  have hgrow : ∃ l2 newSpins newNeighbors, l.IncreaseLatticeSize = .ok l2 ∧
      l2.getGeneration = l.getGeneration + 1 ∧ l2.spins = l.spins ++ newSpins ∧
      l2.neighbors = l.neighbors ++ newNeighbors :=
    ⟨grown l, _, _, IncreaseLatticeSize_eq l, rfl, rfl, rfl⟩
  rcases (getSpin_ok h).2 with ⟨-, rfl⟩ | ⟨-, rfl⟩
  · exact ⟨le_rfl, ⟨[], by simp⟩, ⟨[], by simp⟩, fun _ _ => rfl, fun _ _ => rfl, hgrow⟩
  · refine ⟨by simp [InfiniteLattice.getGeneration, grown], ⟨_, rfl⟩, ⟨_, rfl⟩,
      fun j hj => ?_, fun j hj => ?_, hgrow⟩
    · simp only [InfiniteLattice.getSpinConst, grown, List.getElem?_append_left hj]
    · simp only [InfiniteLattice.getNeighbors, grown, List.getElem?_append_left hj]

/-- Witness for C14: `getSpin 3` on the lattice of generation 0 grows it to
generation 1. -/
theorem getSpin_append_only_witness :
    InfiniteLattice.initial.getSpin 3 =
        .ok (false, ⟨1, [true, false, false, false, false],
          [(1, 2, 3, 4), (5, 6, 0, 12), (6, 7, 8, 0), (0, 8, 9, 10), (12, 0, 10, 11)]⟩) ∧
      InfiniteLattice.initial.getGeneration ≤ 1 ∧
      (∃ newSpins, [true, false, false, false, false] =
        InfiniteLattice.initial.spins ++ newSpins) :=
  ⟨by decide,
    (getSpin_append_only InfiniteLattice.initial 3 false
      ⟨1, [true, false, false, false, false],
        [(1, 2, 3, 4), (5, 6, 0, 12), (6, 7, 8, 0), (0, 8, 9, 10), (12, 0, 10, 11)]⟩
      (by decide)).1,
    (getSpin_append_only InfiniteLattice.initial 3 false
      ⟨1, [true, false, false, false, false],
        [(1, 2, 3, 4), (5, 6, 0, 12), (6, 7, 8, 0), (0, 8, 9, 10), (12, 0, 10, 11)]⟩
      (by decide)).2.1⟩

/-- C15, the claim as stated fails: `getGeneration 5` is 2, while already
`g = 1` satisfies `5 <= 2g^2+2g+1`. -/
theorem getGeneration_least_counterexample :
    getGeneration 5 = 2 ∧ 5 ≤ 2 * 1 ^ 2 + 2 * 1 + 1 ∧ 5 ≤ NumPointsUpToGen 1 ∧
      ¬ ∀ g, 5 ≤ NumPointsUpToGen g → getGeneration 5 ≤ g := by
  refine ⟨by decide, by decide, by decide, fun h => ?_⟩
  have := h 1 (by decide)
  revert this
  decide

/-- C15 as amended: `getGeneration i` is 0 for `i = 0` and
`floor((sqrt(2i-1)-1)/2)+1` for `i > 0`, and it is the smallest `g` such that
`i < 2g^2+2g+1`. -/
theorem getGeneration_least (i : Nat) :
    getGeneration i = (if i = 0 then 0 else (Nat.sqrt (2 * i - 1) - 1) / 2 + 1) ∧
      i < 2 * getGeneration i ^ 2 + 2 * getGeneration i + 1 ∧
      ∀ g, i < 2 * g ^ 2 + 2 * g + 1 → getGeneration i ≤ g := by
  have e : ∀ g, 2 * g ^ 2 + 2 * g + 1 = NumPointsUpToGen g := by
    intro g
    unfold NumPointsUpToGen
    ring
  simp only [e]
  refine ⟨by simp only [getGeneration, isqrt_eq_sqrt], ?_⟩
  rcases Nat.eq_zero_or_pos i with rfl | hi
  · exact ⟨NumPointsUpToGen_pos _, fun g _ => by simp [getGeneration]⟩
  · obtain ⟨h1, h2, h3⟩ := getGeneration_bounds i hi
    refine ⟨h3, fun g hg => ?_⟩
    by_contra hlt
    have := NumPointsUpToGen_mono (show g ≤ getGeneration i - 1 by omega)
    omega

/-- C16: for every index `i > 0` with `g = getGeneration i`: `g >= 1`,
`NumPointsUpToGen (g - 1) <= i`, the sector `(i - NumPointsUpToGen (g - 1)) / g`
is below 4, and `indx2coord i` returns a coordinate: it does not throw. -/
theorem indx2coord_no_throw (i : Nat) (hi : 0 < i) :
    1 ≤ getGeneration i ∧ NumPointsUpToGen (getGeneration i - 1) ≤ i ∧
      (i - NumPointsUpToGen (getGeneration i - 1)) / getGeneration i < 4 ∧
      indx2coord i ≠ .error Fault.thrown ∧ ∃ c, indx2coord i = .ok c := by
  obtain ⟨h1, h2, h3⟩ := getGeneration_bounds i hi
  obtain ⟨c, hc, -⟩ := indx2coord_total i
  refine ⟨h1, h2, ?_, by rw [hc]; exact fun h => Except.noConfusion h, c, hc⟩
  rw [Nat.div_lt_iff_lt_mul (by omega)]
  obtain ⟨k, hk⟩ : ∃ k, getGeneration i = k + 1 := ⟨getGeneration i - 1, by omega⟩
  rw [hk] at h2 h3 ⊢
  rw [NumPointsUpToGen_succ] at h3
  simp only [Nat.add_sub_cancel] at h2 ⊢
  omega

/-- Witness for C16: index 7, the first site of sector II of ring 2. -/
theorem indx2coord_no_throw_witness :
    0 < 7 ∧ 1 ≤ getGeneration 7 ∧ NumPointsUpToGen (getGeneration 7 - 1) ≤ 7 ∧
      (7 - NumPointsUpToGen (getGeneration 7 - 1)) / getGeneration 7 < 4 ∧
      indx2coord 7 ≠ .error Fault.thrown ∧ ∃ c, indx2coord 7 = .ok c :=
  ⟨by decide, indx2coord_no_throw 7 (by decide)⟩

/-- C11: when every draw is rejected, `ClusterSearch` on a reachable lattice
returns exactly the cluster `[0]`; one unit of fuel, one pass of the `while`
loop, is enough. -/
theorem ClusterSearch_all_rejected (l : InfiniteLattice) (hl : Reachable l) (fuel : Nat)
    (hf : 1 ≤ fuel) : ∃ l1, ClusterSearch fuel (fun _ => false) l = .ok ([0], l1) :=
  ClusterSearch_rejected hl hf

/-- Witness for C11: the lattice of generation 1 with all spins equal. -/
theorem ClusterSearch_all_rejected_witness :
    Reachable flippedGen1 ∧ ∃ l1, ClusterSearch 1 (fun _ => false) flippedGen1 = .ok ([0], l1) :=
  ⟨flippedGen1_reachable,
    ClusterSearch_all_rejected flippedGen1 flippedGen1_reachable 1 (by decide)⟩

/-- C12: when every draw is accepted, `ClusterSearch` on a reachable lattice
of generation `G` returns, given fuel for `2(G+1)^2+2(G+1)+1` passes of the
loop, and a site is in the returned cluster exactly when it is connected to
index 0 by neighbour steps through sites that have the origin's spin, the
spin of a site not yet materialised being its Neel value. -/
theorem ClusterSearch_all_accepted (l : InfiniteLattice) (hl : Reachable l) (fuel : Nat) :
    (NumPointsUpToGen (l.getGeneration + 1) ≤ fuel →
        ∃ cluster l1, ClusterSearch fuel (fun _ => true) l = .ok (cluster, l1)) ∧
      ∀ cluster l1, ClusterSearch fuel (fun _ => true) l = .ok (cluster, l1) →
        ∀ i, i ∈ cluster ↔ Connected (virtualSpin l) i := by
  refine ⟨fun hf => ClusterSearch_returns hl hf _, fun cluster l1 h i => ?_⟩
  obtain ⟨st1, rfl, -, hfin⟩ := ClusterSearch_ok_inv hl h
  refine ⟨fun hi => hfin.base.mem_conn i hi, fun hi => ?_⟩
  induction hi with
  | origin =>
    have hh := hfin.base.head
    cases hcl : st1.cluster with
    | nil => rw [hcl] at hh; cases hh
    | cons x t =>
      rw [hcl] at hh
      simp only [List.head?_cons, Option.some.injEq] at hh
      rw [hh]
      exact List.mem_cons_self _ _
  | step a b _ hb hs ih =>
    have ha : a ∈ List.take st1.cluster.length st1.cluster := by
      rw [List.take_length]
      exact ih
    exact hfin.closed (fun _ => rfl) a ha b hb hs

/-- Witness for C12: on the lattice of generation 1 with all spins equal the
cluster is `[0, 1, 2, 3, 4]`, the whole lattice; the next ring is created
with the opposite spin. -/
theorem ClusterSearch_all_accepted_witness :
    Reachable flippedGen1 ∧
      (ClusterSearch 13 (fun _ => true) flippedGen1).map Prod.fst = .ok [0, 1, 2, 3, 4] ∧
      ∀ i, i ∈ [0, 1, 2, 3, 4] ↔ Connected (virtualSpin flippedGen1) i := by
  have h : ClusterSearch 13 (fun _ => true) flippedGen1 =
      .ok ([0, 1, 2, 3, 4], ⟨2,
        [false, false, false, false, false, true, true, true, true, true, true, true, true],
        [(1, 2, 3, 4), (5, 6, 0, 12), (6, 7, 8, 0), (0, 8, 9, 10), (12, 0, 10, 11),
          (13, 14, 1, 24), (14, 15, 2, 1), (15, 16, 17, 2), (2, 17, 18, 3), (3, 18, 19, 20),
          (4, 3, 20, 21), (23, 4, 21, 22), (24, 1, 4, 23)]⟩) := by decide
  exact ⟨flippedGen1_reachable, by rw [h]; rfl,
    (ClusterSearch_all_accepted flippedGen1 flippedGen1_reachable 13).2 _ _ h⟩

/-- C17: on a reachable lattice, for every sequence of draws and every amount
of fuel, no read of `ClusterSearch` is out of range: the search either runs
out of fuel or returns, and with fuel for `2(G+1)^2+2(G+1)+1` passes it
returns.  Every index of the returned cluster is materialised, so the
following `flipSpins` returns as well, and both lattices are reachable again.
Every neighbour of a materialised site has generation at most `G + 1`, and
the non-const `getSpin` of it returns. -/
theorem ClusterSearch_in_range (l : InfiniteLattice) (hl : Reachable l) (fuel : Nat)
    (draws : Nat → Bool) :
    (ClusterSearch fuel draws l = .error Fault.outOfFuel ∨
        ∃ cluster l1, ClusterSearch fuel draws l = .ok (cluster, l1) ∧ Reachable l1 ∧
          (∀ s ∈ cluster, s < l1.spins.length) ∧
          ∃ l2, l1.flipSpins cluster = .ok l2 ∧ Reachable l2) ∧
      (NumPointsUpToGen (l.getGeneration + 1) ≤ fuel →
        ∃ cluster l1, ClusterSearch fuel draws l = .ok (cluster, l1)) ∧
      (∀ i n, i < l.spins.length → n ∈ (neighborsOf i).toList →
        l.getNeighbors i = .ok (neighborsOf i) ∧ getGeneration n ≤ l.getGeneration + 1 ∧
          ∃ b l1, l.getSpin n = .ok (b, l1)) := by
  refine ⟨?_, fun hf => ClusterSearch_returns hl hf draws, fun i n hi hn => ?_⟩
  · rcases ClusterSearch_inv hl fuel draws with ⟨st1, e1, -, -, hfin⟩ | ⟨e1, -, -, -⟩
    · right
      have hflip := flipSpins_eq st1.latt st1.cluster hfin.base.mem_lt
      exact ⟨_, _, e1, hfin.base.reach, hfin.base.mem_lt, _, hflip,
        Reachable.flipSpins _ _ _ hfin.base.reach hflip⟩
    · exact Or.inl e1
  · obtain ⟨h1, -, h3⟩ := hl.wellFormed
    have hgi : getGeneration i ≤ l.gen :=
      (lt_NumPointsUpToGen_iff i l.gen).1 (by rw [← h1]; exact hi)
    have hgn : getGeneration n ≤ l.gen + 1 := by
      have := getGeneration_neighbor hn
      omega
    refine ⟨?_, hgn, ?_⟩
    · rw [InfiniteLattice.getNeighbors, h3 i (by omega)]
    · have hlt : n < l.spins.length + 4 * (l.gen + 1) := by
        rw [h1, ← NumPointsUpToGen_succ, lt_NumPointsUpToGen_iff]
        exact hgn
      by_cases hm : n < l.spins.length
      · exact ⟨_, _, getSpin_of_lt (List.getElem?_eq_getElem hm)⟩
      · have hlen : n < (grown l).spins.length := by
          simp only [grown, List.length_append, List.length_replicate]
          omega
        have hge : n ≥ l.spins.length := by omega
        refine ⟨(grown l).spins[n], grown l, ?_⟩
        simp only [InfiniteLattice.getSpin, hge, if_true, IncreaseLatticeSize_eq,
          List.getElem?_eq_getElem hlen]

/-- Witness for C17: the lattice of generation 1 with all spins equal, draws
accepted and rejected in turn, fuel for three passes: the search runs out of
fuel or returns, and no read is out of range. -/
theorem ClusterSearch_in_range_witness :
    Reachable flippedGen1 ∧
      (ClusterSearch 3 (fun k => k % 2 == 0) flippedGen1 = .error Fault.outOfFuel ∨
        ∃ cluster l1, ClusterSearch 3 (fun k => k % 2 == 0) flippedGen1 = .ok (cluster, l1) ∧
          Reachable l1 ∧ (∀ s ∈ cluster, s < l1.spins.length) ∧
          ∃ l2, l1.flipSpins cluster = .ok l2 ∧ Reachable l2) :=
  ⟨flippedGen1_reachable,
    (ClusterSearch_in_range flippedGen1 flippedGen1_reachable 3 (fun k => k % 2 == 0)).1⟩

/-- C18: on a reachable lattice of generation `G`, for every sequence of
draws, `ClusterSearch` returns when it has fuel for `2(G+1)^2+2(G+1)+1`
passes of the loop; every site of the returned cluster has generation at most
`G + 1`, the cluster has at most `2(G+1)^2+2(G+1)+1` sites, and the lattice
returned has generation at most `G + 2`. -/
theorem ClusterSearch_terminates (l : InfiniteLattice) (hl : Reachable l) (draws : Nat → Bool)
    (fuel : Nat)
    (hf : 2 * (l.getGeneration + 1) ^ 2 + 2 * (l.getGeneration + 1) + 1 ≤ fuel) :
    ∃ cluster l1, ClusterSearch fuel draws l = .ok (cluster, l1) ∧
      (∀ s ∈ cluster, getGeneration s ≤ l.getGeneration + 1) ∧
      cluster.length ≤ 2 * (l.getGeneration + 1) ^ 2 + 2 * (l.getGeneration + 1) + 1 ∧
      l.getGeneration ≤ l1.getGeneration ∧ l1.getGeneration ≤ l.getGeneration + 2 := by
  have e : 2 * (l.getGeneration + 1) ^ 2 + 2 * (l.getGeneration + 1) + 1 =
      NumPointsUpToGen (l.gen + 1) := by
    unfold NumPointsUpToGen InfiniteLattice.getGeneration
    ring
  rw [e] at hf ⊢
  rcases ClusterSearch_inv hl fuel draws with ⟨st1, e1, -, -, hfin⟩ | ⟨-, -, -, hlt⟩
  · exact ⟨_, _, e1, hfin.base.mem_gen, hfin.base.length_le, hfin.base.gen_ge,
      hfin.base.gen_le⟩
  · omega

/-- Witness for C18: the lattice of generation 1 with all spins equal, every
draw accepted, fuel 13. -/
theorem ClusterSearch_terminates_witness :
    Reachable flippedGen1 ∧
      2 * (flippedGen1.getGeneration + 1) ^ 2 + 2 * (flippedGen1.getGeneration + 1) + 1 ≤ 13 ∧
      ∃ cluster l1, ClusterSearch 13 (fun _ => true) flippedGen1 = .ok (cluster, l1) ∧
        (∀ s ∈ cluster, getGeneration s ≤ flippedGen1.getGeneration + 1) ∧
        cluster.length ≤
          2 * (flippedGen1.getGeneration + 1) ^ 2 + 2 * (flippedGen1.getGeneration + 1) + 1 ∧
        flippedGen1.getGeneration ≤ l1.getGeneration ∧
        l1.getGeneration ≤ flippedGen1.getGeneration + 2 :=
  ⟨flippedGen1_reachable, by decide,
    ClusterSearch_terminates flippedGen1 flippedGen1_reachable (fun _ => true) 13 (by decide)⟩

/-- C19: the cluster `ClusterSearch` returns on a reachable lattice starts
with index 0, holds no index twice, and every member has the spin of the
origin; the following `flipSpins` returns, inverts the spin of every member,
and leaves every other spin, the generation and the neighbour tuples as they
are. -/
theorem ClusterSearch_cluster_spec (l : InfiniteLattice) (hl : Reachable l) (fuel : Nat)
    (draws : Nat → Bool) (cluster : List Nat) (l1 : InfiniteLattice)
    (h : ClusterSearch fuel draws l = .ok (cluster, l1)) :
    cluster.head? = some 0 ∧ cluster.Nodup ∧
      (∀ m ∈ cluster, ∃ b, l1.getSpinConst m = .ok b ∧ l1.getSpinConst 0 = .ok b) ∧
      ∃ l2, l1.flipSpins cluster = .ok l2 ∧ l2.getGeneration = l1.getGeneration ∧
        l2.neighbors = l1.neighbors ∧ l2.spins.length = l1.spins.length ∧
        ∀ j, l2.spins[j]? =
          if j ∈ cluster then l1.spins[j]?.map (fun b => !b) else l1.spins[j]? := by
  obtain ⟨st1, rfl, rfl, hfin⟩ := ClusterSearch_ok_inv hl h
  have hb := hfin.base
  have h0 : 0 ∈ st1.cluster := by
    have hh := hb.head
    cases hcl : st1.cluster with
    | nil => rw [hcl] at hh; cases hh
    | cons x t =>
      rw [hcl] at hh
      simp only [List.head?_cons, Option.some.injEq] at hh
      rw [hh]
      exact List.mem_cons_self _ _
  refine ⟨hb.head, hb.nodup, fun m hm => ⟨virtualSpin l m, ?_, ?_⟩, ?_⟩
  · simp only [InfiniteLattice.getSpinConst, hb.spin_eq m (hb.mem_lt m hm)]
  · simp only [InfiniteLattice.getSpinConst, hb.spin_eq 0 (hb.mem_lt 0 h0), hb.mem_spin m hm]
  · refine ⟨_, flipSpins_eq st1.latt st1.cluster hb.mem_lt, rfl, rfl, ?_, fun j => ?_⟩
    · simp only [length_flipAll]
    · simp only [getElem?_flipAll_nodup _ _ hb.nodup]

/-- Witness for C19: the lattice of generation 1 with all spins equal, draws
accepted and rejected in turn; the cluster is `[0, 1, 3]`. -/
theorem ClusterSearch_cluster_spec_witness :
    Reachable flippedGen1 ∧
      (ClusterSearch 13 (fun k => k % 2 == 0) flippedGen1).map Prod.fst = .ok [0, 1, 3] ∧
      [0, 1, 3].head? = some 0 ∧ [0, 1, 3].Nodup := by
  have h : ClusterSearch 13 (fun k => k % 2 == 0) flippedGen1 = .ok ([0, 1, 3], ⟨2,
      [false, false, false, false, false, true, true, true, true, true, true, true, true],
      [(1, 2, 3, 4), (5, 6, 0, 12), (6, 7, 8, 0), (0, 8, 9, 10), (12, 0, 10, 11),
        (13, 14, 1, 24), (14, 15, 2, 1), (15, 16, 17, 2), (2, 17, 18, 3), (3, 18, 19, 20),
        (4, 3, 20, 21), (23, 4, 21, 22), (24, 1, 4, 23)]⟩) := by decide
  have w := ClusterSearch_cluster_spec flippedGen1 flippedGen1_reachable 13
    (fun k => k % 2 == 0) [0, 1, 3] _ h
  exact ⟨flippedGen1_reachable, by rw [h]; rfl, w.1, w.2.1⟩

/-- C20: on a reachable lattice, for every sequence of draws and every amount
of fuel, the test of `bonds_visited` never rejects a candidate: the strict
search, which stops at the first rejection, returns what `ClusterSearch`
returns; and the variant of `ClusterSearch` without the test and the
insertion returns the same cluster and the same lattice.  With fuel for
`2(G+1)^2+2(G+1)+1` passes all of them return. -/
theorem bonds_visited_redundant (l : InfiniteLattice) (hl : Reachable l) (fuel : Nat)
    (draws : Nat → Bool) :
    ClusterSearchStrict fuel draws l = (ClusterSearch fuel draws l).map some ∧
      ClusterSearchNoBonds fuel draws l = ClusterSearch fuel draws l ∧
      (NumPointsUpToGen (l.getGeneration + 1) ≤ fuel →
        ∃ cluster l1, ClusterSearch fuel draws l = .ok (cluster, l1)) := by
  refine ⟨?_, ?_, fun hf => ClusterSearch_returns hl hf draws⟩
  · rcases ClusterSearch_inv hl fuel draws with ⟨st1, e1, -, e3, -⟩ | ⟨e1, -, e3, -⟩ <;>
      rw [e1, e3] <;> rfl
  · rcases ClusterSearch_inv hl fuel draws with ⟨st1, e1, e2, -, -⟩ | ⟨e1, e2, -, -⟩ <;>
      rw [e1, e2]

/-- Witness for C20: the lattice of generation 1 with all spins equal, draws
accepted and rejected in turn, fuel 13. -/
theorem bonds_visited_redundant_witness :
    Reachable flippedGen1 ∧
      ClusterSearchStrict 13 (fun k => k % 2 == 0) flippedGen1 =
        (ClusterSearch 13 (fun k => k % 2 == 0) flippedGen1).map some ∧
      ClusterSearchNoBonds 13 (fun k => k % 2 == 0) flippedGen1 =
        ClusterSearch 13 (fun k => k % 2 == 0) flippedGen1 ∧
      (ClusterSearch 13 (fun k => k % 2 == 0) flippedGen1).map Prod.fst = .ok [0, 1, 3] :=
  ⟨flippedGen1_reachable,
    (bonds_visited_redundant flippedGen1 flippedGen1_reachable 13 (fun k => k % 2 == 0)).1,
    (bonds_visited_redundant flippedGen1 flippedGen1_reachable 13 (fun k => k % 2 == 0)).2.1,
    by decide⟩

end InfiniteIsing
